import Mathlib

/-!
# galois-head: the bounded-time frame reader `ghead::read`

A shallow embedding of `src/ghead.cpp`: `ghead::poll_wrap`,
`ghead::sync_read_n_tmo` and `ghead::read`, run against an explicit world
(caller memory, `errno`, the peer's byte stream, the system clock and the
outcomes of the `poll(2)` / `read(2)` calls).

Platform conventions (LP64 Linux, libstdc++): `int` is 32 bits, `size_t` and
`ssize_t` are 64 bits, `system_clock` counts nanoseconds, header fields are
loaded in host (little-endian) byte order.  `ghead::log` only formats a
message for the logging sink and never changes control flow, so it is left
out of the embedding.
-/

namespace galois.ghead

/-! ## Machine integers -/

/-- Conversion to `int` (two's complement, 32 bits). -/
def toInt32 (x : Int) : Int := (x + 2147483648) % 4294967296 - 2147483648

/-- Conversion to `ssize_t` / `int64_t` (two's complement, 64 bits). -/
def toInt64 (x : Int) : Int :=
  (x + 9223372036854775808) % 18446744073709551616 - 9223372036854775808

/-- Conversion to `size_t` (unsigned, 64 bits). -/
def toSizeT (x : Int) : Nat := (x % 18446744073709551616).toNat

/-! ## Constants and the header type -/

/-- The return codes of `ghead::read` (declared in `ghead.h`). -/
inductive RETURN_CODE where
  | RET_SUCCESS
  | RET_EPARAM
  | RET_EBODYLEN
  | RET_READ
  | RET_READHEAD
  | RET_PEARCLOSE
  | RET_ETIMEDOUT
  | RET_EMAGICNUM
  deriving DecidableEq, Repr

open RETURN_CODE

/-- The constant `ghead::GHEAD_MAGICNUM = 0xe8c4a59`. -/
@[reducible] def GHEAD_MAGICNUM : Nat := 0xe8c4a59

/-- Linux `errno` value `EINTR`. -/
@[reducible] def EINTR : Int := 4

/-- Linux `errno` value `ETIMEDOUT`. -/
@[reducible] def ETIMEDOUT : Int := 110

/-- The layout of `struct ghead`, whose declaration (`ghead.h`) is not part of
the sources and is therefore a parameter: `size` is `sizeof(ghead)`, the two
offsets locate the 32-bit fields `magic_num` and `body_len` inside the
header. -/
structure Layout where
  size : Nat
  off_magic_num : Nat
  off_body_len : Nat
  magic_num_in : off_magic_num + 4 ≤ size
  body_len_in : off_body_len + 4 ≤ size
  size_lt : size < 2147483648

/-- Modelled from the spec: the declaration of `struct ghead` (`ghead.h`) is
missing, so is the offset of its member `body`.  The spec has the core write
"the header into its start and, if room remains, the body immediately
after", and `ghead::read` sizes the frame as `sizeof(ghead) + body_len`: the
member `body` starts at offset `sizeof(ghead)`. -/
def off_body (L : Layout) : Nat := L.size

/-- Load of a `uint32_t` field at address `a` (little-endian); a memory cell
holds a byte, of which only the value modulo 256 is used. -/
def load32 (mem : Nat → Nat) (a : Nat) : Nat :=
  mem a % 256 + 256 * (mem (a + 1) % 256) + 65536 * (mem (a + 2) % 256)
    + 16777216 * (mem (a + 3) % 256)

/-! ## The environment -/

/-- One outcome of a system call, in the order in which the calls complete:
`poll ret err` is the result of a `poll(2)` call, `read ret err` the result
of a `read(2)` call; `err` is the value stored in `errno` when `ret < 0`. -/
inductive Ev where
  | poll (ret : Int) (err : Int)
  | read (ret : Int) (err : Int)
  deriving DecidableEq, Repr

/-- A system call as issued by the program, with its arguments and result:
`poll fds nfds timeout ret` and `read fd ptr count ret`. -/
inductive Call where
  | poll (fds : List Int) (nfds : Nat) (timeout : Int) (ret : Int)
  | read (fd : Int) (ptr : Nat) (count : Nat) (ret : Int)
  deriving DecidableEq, Repr

/-- The state of the world around one call.
* `mem`: the caller's memory, one byte per address;
* `errno`: the thread's `errno`;
* `peer`: the byte stream sent by the peer, `pos` the number of its bytes
  already consumed from the socket;
* `clock`: the successive readings of `system_clock::now()` in nanoseconds,
  `nclock` the number of readings taken so far;
* `trace`: the outcomes of the system calls still to come;
* `calls`: the system calls issued so far, oldest first. -/
structure World where
  mem : Nat → Nat
  errno : Int
  peer : Nat → Nat
  pos : Nat
  clock : Nat → Int
  nclock : Nat
  trace : List Ev
  calls : List Call

/-- The call `system_clock::now()`. -/
def now (w : World) : Int × World :=
  (w.clock w.nclock, { w with nclock := w.nclock + 1 })

/-- The system call `poll(fdarray, nfds, timeout)`: its result is the next
outcome of the trace; `none` when the trace has no `poll` outcome next (the
call has not returned within the trace). -/
def sys_poll (fds : List Int) (nfds : Nat) (timeout : Int) (w : World) :
    Option (Int × World) :=
  match w.trace with
  | Ev.poll ret err :: rest =>
    some (ret, { w with
      trace := rest
      errno := if ret < 0 then err else w.errno
      calls := w.calls ++ [Call.poll fds nfds timeout ret] })
  | _ => none

/-- The system call `read(fd, ptr, count)` on the socket: a result `ret > 0`
stores the next `ret` bytes of the peer's stream at `ptr`.  By the contract of
`read(2)` the result is `-1` or a byte count of at most `count`, and Linux
transfers at most `0x7ffff000` bytes in one call; a trace whose next outcome
is anything else does not describe a run (`none`). -/
def sys_read (fd : Int) (ptr : Nat) (count : Nat) (w : World) :
    Option (Int × World) :=
  match w.trace with
  | Ev.read ret err :: rest =>
    if ret < -1 ∨ (count : Int) < ret ∨ 2147479552 < ret then none
    else if ret < 0 then
      some (ret, { w with
        trace := rest
        errno := err
        calls := w.calls ++ [Call.read fd ptr count ret] })
    else
      some (ret, { w with
        trace := rest
        mem := fun a =>
          if ptr ≤ a ∧ a < ptr + ret.toNat then w.peer (w.pos + (a - ptr))
          else w.mem a
        pos := w.pos + ret.toNat
        calls := w.calls ++ [Call.read fd ptr count ret] })
  | _ => none

/-! ## The program -/

/-- The `while(true)` loop of `ghead::poll_wrap`; `start` is the time point
taken before the loop and `rest_timeout` the remaining budget in
milliseconds.  Every iteration consumes one outcome of the trace, `fuel`
bounds the number of iterations. -/
def poll_wrap_loop (fds : List Int) (nfds : Nat) (start : Int) :
    Nat → Int → World → Option (Int × World)
  | 0, _, _ => none
  | fuel + 1, rest_timeout, w =>
    match sys_poll fds nfds (toInt32 rest_timeout) w with
    | none => none
    | some (ret_val, w1) =>
      if ret_val > 0 then some (ret_val, w1)
      else if ret_val = 0 then some (ret_val, { w1 with errno := ETIMEDOUT })
      else if ret_val < 0 ∧ w1.errno = EINTR then
        let t := now w1
        let rest_timeout1 := rest_timeout - Int.tdiv (t.1 - start) 1000000
        if rest_timeout1 > 0 then
          poll_wrap_loop fds nfds start fuel rest_timeout1 t.2
        else some (0, { t.2 with errno := ETIMEDOUT })
      else some (ret_val, w1)

/-- The function `ghead::poll_wrap(fdarray, nfds, timeout_ms)`; `fdarray` is
`none` for a null pointer and otherwise lists the descriptors of the array. -/
def poll_wrap (fdarray : Option (List Int)) (nfds : Nat) (timeout_ms : Int)
    (w : World) : Option (Int × World) :=
  match fdarray with
  | none => some (-1, w)
  | some fds =>
    if nfds = 0 then some (-1, w)
    else
      let t := now w
      poll_wrap_loop fds nfds t.1 (t.2.trace.length + 1) timeout_ms t.2

/-- The value `nbytes - nleft` returned by `ghead::sync_read_n_tmo`, computed
in `size_t` and converted to `ssize_t`. -/
def read_count (nbytes nleft : Nat) : Int :=
  toInt64 (toSizeT ((nbytes : Int) - (nleft : Int)))

/-- The `while(nleft > 0)` loop of `ghead::sync_read_n_tmo`, with the final
`return nbytes - nleft`.  Every iteration consumes at least one outcome of
the trace, `fuel` bounds the number of iterations. -/
def sync_read_loop (fd : Int) (nbytes : Nat) (timeout_ms : Int) :
    Nat → Nat → Nat → World → Option (Int × World)
  | 0, _, nleft, w => if nleft > 0 then none else some (read_count nbytes nleft, w)
  | fuel + 1, ptr, nleft, w =>
    if nleft > 0 then
      match poll_wrap (some [fd]) 1 timeout_ms w with
      | none => none
      | some (presult, w1) =>
        if presult > 0 then
          match sys_read fd ptr nleft w1 with
          | none => none
          | some (ret, w2) =>
            let nread := toInt32 ret
            if nread < 0 then
              if w2.errno = EINTR then
                sync_read_loop fd nbytes timeout_ms fuel ptr nleft w2
              else some (-1, w2)
            else if nread = 0 then some (read_count nbytes nleft, w2)
            else
              sync_read_loop fd nbytes timeout_ms fuel (ptr + nread.toNat)
                (toSizeT ((nleft : Int) - nread)) w2
        else if presult = 0 then some (read_count nbytes nleft, w1)
        else some (-1, w1)
    else some (read_count nbytes nleft, w)

/-- The function `ghead::sync_read_n_tmo(fd, ptr, nbytes, timeout_ms)`; `ptr`
is `none` for a null pointer. -/
def sync_read_n_tmo (fd : Int) (ptr : Option Nat) (nbytes : Nat)
    (timeout_ms : Int) (w : World) : Option (Int × World) :=
  match ptr with
  | none => some (-1, w)
  | some p =>
    if nbytes = 0 then some (-1, w)
    else sync_read_loop fd nbytes timeout_ms (w.trace.length + 1) p nbytes w

/-- The code at the label `ghead_read_fail` of `ghead::read`. -/
def ghead_read_fail (rlen : Int) (w : World) : RETURN_CODE :=
  if rlen = 0 then RET_PEARCLOSE
  else if rlen = -1 ∧ w.errno = ETIMEDOUT then RET_ETIMEDOUT
  else RET_READ

/-- The function `ghead::read(sock, head, buflen, timeout)`; `head` is `none`
for a null pointer and otherwise the address of the caller's buffer. -/
def read (L : Layout) (sock : Int) (head : Option Nat) (buflen : Nat)
    (timeout : Int) (w : World) : Option (RETURN_CODE × World) :=
  if sock < 0 ∨ head = none ∨ buflen < L.size then some (RET_EPARAM, w)
  else
    let hp := head.getD 0
    match sync_read_n_tmo sock (some hp) L.size timeout w with
    | none => none
    | some (r, w1) =>
      let rlen := toInt32 r
      if rlen ≤ 0 then some (ghead_read_fail rlen w1, w1)
      else if toSizeT rlen ≠ L.size then some (RET_READHEAD, w1)
      else if load32 w1.mem (hp + L.off_magic_num) ≠ GHEAD_MAGICNUM then
        some (RET_EMAGICNUM, w1)
      else if buflen < toSizeT ((L.size : Int) + load32 w1.mem (hp + L.off_body_len)) then
        some (RET_EBODYLEN, w1)
      else if load32 w1.mem (hp + L.off_body_len) > 0 then
        match sync_read_n_tmo sock (some (hp + off_body L))
            (load32 w1.mem (hp + L.off_body_len)) timeout w1 with
        | none => none
        | some (r2, w2) =>
          let rlen2 := toInt32 r2
          if rlen2 ≤ 0 then some (ghead_read_fail rlen2 w2, w2)
          else if rlen2 ≠ toInt32 (load32 w2.mem (hp + L.off_body_len)) then
            some (RET_READ, w2)
          else some (RET_SUCCESS, w2)
      else some (RET_SUCCESS, w1)

/-! ## Concrete inputs used by the evaluations below -/

/-- The wire layout `magic_num : u32, log_id : u32, body_len : u32`. -/
def wire12 : Layout :=
  { size := 12, off_magic_num := 0, off_body_len := 8,
    magic_num_in := by decide, body_len_in := by decide, size_lt := by decide }

/-- A world with zeroed memory, `errno = 0`, a clock that stands still, the
given peer stream and the given outcomes to come. -/
def world0 (peer : Nat → Nat) (trace : List Ev) : World :=
  { mem := fun _ => 0, errno := 0, peer := peer, pos := 0,
    clock := fun _ => 0, nclock := 0, trace := trace, calls := [] }

/-- The stream of a peer that sends the 12 header bytes `hdr` and then the
byte `b` for ever. -/
def streamOf (hdr : List Nat) (b : Nat) : Nat → Nat :=
  fun i => if i < hdr.length then hdr.getD i 0 else b

/-- Header bytes with the right magic, `log_id = 7` and `body_len = 5`. -/
def hdr5 : List Nat := [0x59, 0x4a, 0x8c, 0x0e, 7, 0, 0, 0, 5, 0, 0, 0]

/-- Header bytes with the right magic, `log_id = 7` and `body_len = 2^31`. -/
def hdrBig : List Nat := [0x59, 0x4a, 0x8c, 0x0e, 7, 0, 0, 0, 0, 0, 0, 0x80]

/-- Header bytes with a wrong magic, `log_id = 7` and `body_len = 5`. -/
def hdrBad : List Nat := [0x58, 0x4a, 0x8c, 0x0e, 7, 0, 0, 0, 5, 0, 0, 0]

/-- Header bytes with the right magic, `log_id = 7` and `body_len = 200`. -/
def hdr200 : List Nat := [0x59, 0x4a, 0x8c, 0x0e, 7, 0, 0, 0, 200, 0, 0, 0]

/-- The world left by a run, or `w` when the run has no result. -/
def worldAfter {α : Type} (r : Option (α × World)) (w : World) : World :=
  match r with
  | some x => x.2
  | none => w

/-- The calls issued between the world `w` and the later world `wf`. -/
def newCalls (w wf : World) : List Call := wf.calls.drop w.calls.length

/-- The result code of a run, when it has one. -/
def code (r : Option (RETURN_CODE × World)) : Option RETURN_CODE := r.map Prod.fst

/-- The outcomes seen when the peer delivers its bytes in chunks: for every
pair `(pr, n)` a `poll` reporting `pr` ready descriptors followed by a `read`
returning `n` bytes. -/
def deliver : List (Int × Nat) → List Ev
  | [] => []
  | c :: cs => Ev.poll c.1 0 :: Ev.read c.2 0 :: deliver cs

/-- The number of bytes delivered by a list of chunks. -/
def total : List (Int × Nat) → Nat
  | [] => 0
  | c :: cs => c.2 + total cs

/-- Whole milliseconds between the time point `start` and the clock reading
number `i`, as `duration_cast<milliseconds>(now - start)` computes them. -/
def elapsed (clock : Nat → Int) (start : Int) (i : Nat) : Int :=
  Int.tdiv (clock i - start) 1000000

/-- The value of `rest_timeout` in `ghead::poll_wrap` after `k` interruptions,
the first of them observed at clock reading number `n` with `rest` left. -/
def rest_after (clock : Nat → Int) (start : Int) : Nat → Nat → Int → Int
  | 0, _, rest => rest
  | k + 1, n, rest => rest_after clock start k (n + 1) (rest - elapsed clock start n)

/-- The outcomes of `poll` calls interrupted by a signal: each returns the
negative value listed and sets `errno` to `EINTR`. -/
def eintrs (rets : List Int) : List Ev := rets.map (fun r => Ev.poll r EINTR)

/-- The `poll` calls of one readiness wait whose polls return `rets` in turn,
each call with the timeout left after the interruptions before it. -/
def retryCalls (fds : List Int) (nfds : Nat) (clock : Nat → Int) (start : Int) :
    List Int → Nat → Int → List Call
  | [], _, _ => []
  | ret :: rets, n, rest =>
    Call.poll fds nfds (toInt32 rest) ret
      :: retryCalls fds nfds clock start rets (n + 1) (rest - elapsed clock start n)

/-- The sum of the positive results of the `read` calls of a log. -/
def readSum : List Call → Int
  | [] => 0
  | Call.poll _ _ _ _ :: cs => readSum cs
  | Call.read _ _ _ ret :: cs => (if 0 < ret then ret else 0) + readSum cs

/-- The last call of the log is a `read` that returned a positive count. -/
def lastIsData (cs : List Call) : Prop :=
  ∃ fd q cnt ret, cs.getLast? = some (Call.read fd q cnt ret) ∧ 0 < ret

/-- Every `poll` call of the log that starts a readiness wait is issued with
the timeout `T`.  A `poll` starts a wait when it is the first call of the
log (for `fresh = true`) or directly follows a `read`; a `poll` that
directly follows another `poll` is a retry inside the same wait. -/
def WaitsStartAt (T : Int) : Bool → List Call → Prop
  | _, [] => True
  | fresh, Call.poll _ _ t _ :: cs => (fresh = true → t = T) ∧ WaitsStartAt T false cs
  | _, Call.read _ _ _ _ :: cs => WaitsStartAt T true cs

/-- The result recorded with a call. -/
def callRet : Call → Int
  | Call.poll _ _ _ ret => ret
  | Call.read _ _ _ ret => ret

/-- A world as `world0`, except that every memory cell holds the byte 255:
the caller's buffer has stale contents. -/
def worldStale (peer : Nat → Nat) (trace : List Ev) : World :=
  { world0 peer trace with mem := fun _ => 255 }

/-! ## Predicates on runs -/

/-- The calls of `new` are all `poll` calls. -/
def OnlyPolls (new : List Call) : Prop :=
  ∀ c ∈ new, ∃ fds nfds timeout ret, c = Call.poll fds nfds timeout ret

/-- The world `w1` differs from `w` by a readiness wait only: memory, peer
stream and stream position are the same and the calls added are polls. -/
def WaitOnly (w w1 : World) : Prop :=
  w1.mem = w.mem ∧ w1.peer = w.peer ∧ w1.pos = w.pos
    ∧ ∃ new, w1.calls = w.calls ++ new ∧ OnlyPolls new

/-- Every `read` call of `new` asks for a positive count of bytes inside the
address range `[lo, hi)` and gets back at most that count. -/
def ReadsWithin (lo hi : Nat) (new : List Call) : Prop :=
  ∀ fd q cnt ret, Call.read fd q cnt ret ∈ new →
    lo ≤ q ∧ q + cnt ≤ hi ∧ 0 < cnt ∧ ret ≤ (cnt : Int)

/-- The world `wf` differs from `w` by waits and by reads into `[lo, hi)`
only: the peer stream is the same, memory outside `[lo, hi)` is the same and
the `read` calls added stay inside `[lo, hi)`. -/
def Within (lo hi : Nat) (w wf : World) : Prop :=
  wf.peer = w.peer ∧ (∀ a, a < lo ∨ hi ≤ a → wf.mem a = w.mem a)
    ∧ ∃ new, wf.calls = w.calls ++ new ∧ ReadsWithin lo hi new

/-! ## Arithmetic of the conversions -/

theorem toInt32_of_range (x : Int) (h0 : -2147483648 ≤ x) (h1 : x < 2147483648) :
    toInt32 x = x := by
  unfold toInt32; omega

theorem toSizeT_of_range (x : Int) (h0 : 0 ≤ x) (h1 : x < 18446744073709551616) :
    toSizeT x = x.toNat := by
  unfold toSizeT; congr 1; omega

theorem toSizeT_natCast (n : Nat) (h : n < 18446744073709551616) :
    toSizeT (n : Int) = n := by
  rw [toSizeT_of_range _ (by omega) (by omega)]; simp

/-- The test `rlen > 0 && rlen == (int)body_len` of `ghead::read` on the
`int`-narrowed count: it holds only for a body below `2^31` bytes that was
read in full. -/
theorem int_count_full (bl : Nat) (r2 : Int) (hbl : bl < 4294967296)
    (hpos : 0 < toInt32 r2) (heq : toInt32 r2 = toInt32 (bl : Int)) :
    bl < 2147483648 ∧ (-1 ≤ r2 → r2 ≤ bl → r2 = bl) := by
  unfold toInt32 at hpos heq
  omega

theorem load32_lt (mem : Nat → Nat) (a : Nat) : load32 mem a < 4294967296 := by
  unfold load32; omega

theorem read_count_of_le (nbytes nleft : Nat) (h : nleft ≤ nbytes)
    (hn : nbytes < 9223372036854775808) :
    read_count nbytes nleft = ((nbytes - nleft : Nat) : Int) := by
  unfold read_count toInt64
  rw [toSizeT_of_range _ (by omega) (by omega)]
  omega

theorem sync_read_n_tmo_some (fd : Int) (p nbytes : Nat) (timeout_ms : Int) (w : World)
    (h : 0 < nbytes) :
    sync_read_n_tmo fd (some p) nbytes timeout_ms w
      = sync_read_loop fd nbytes timeout_ms (w.trace.length + 1) p nbytes w := by
  simp only [sync_read_n_tmo]
  rw [if_neg (by omega)]

/-! ## What the system calls and the readiness wait leave behind -/

theorem sys_poll_spec (fds : List Int) (nfds : Nat) (timeout : Int) (w w1 : World) (r : Int)
    (h : sys_poll fds nfds timeout w = some (r, w1)) :
    w1.mem = w.mem ∧ w1.peer = w.peer ∧ w1.pos = w.pos ∧ w1.clock = w.clock
      ∧ w1.nclock = w.nclock
      ∧ w1.calls = w.calls ++ [Call.poll fds nfds timeout r]
      ∧ ∃ err, w.trace = Ev.poll r err :: w1.trace
          ∧ w1.errno = if r < 0 then err else w.errno := by
  unfold sys_poll at h
  split at h
  · rename_i ret err rest htr
    simp only [Option.some.injEq, Prod.mk.injEq] at h
    obtain ⟨h1, h2⟩ := h
    subst h1; subst h2
    exact ⟨rfl, rfl, rfl, rfl, rfl, rfl, err, htr, rfl⟩
  · simp at h

theorem sys_read_spec (fd : Int) (ptr count : Nat) (w w2 : World) (ret : Int)
    (h : sys_read fd ptr count w = some (ret, w2)) :
    -1 ≤ ret ∧ ret ≤ count ∧ w2.peer = w.peer ∧ w2.clock = w.clock ∧ w2.nclock = w.nclock
      ∧ w2.calls = w.calls ++ [Call.read fd ptr count ret]
      ∧ (∃ err, w.trace = Ev.read ret err :: w2.trace ∧ (ret < 0 → w2.errno = err))
      ∧ (ret < 0 → w2.mem = w.mem ∧ w2.pos = w.pos)
      ∧ (0 ≤ ret → w2.errno = w.errno ∧ w2.pos = w.pos + ret.toNat
          ∧ ∀ a, w2.mem a =
              if ptr ≤ a ∧ a < ptr + ret.toNat then w.peer (w.pos + (a - ptr)) else w.mem a) := by
  unfold sys_read at h
  split at h
  · rename_i r err rest htr
    split at h
    · simp at h
    · rename_i hr
      split at h
      · rename_i hneg
        simp only [Option.some.injEq, Prod.mk.injEq] at h
        obtain ⟨h1, h2⟩ := h
        subst h1; subst h2
        refine ⟨by omega, by omega, rfl, rfl, rfl, rfl, ⟨err, htr, fun _ => rfl⟩,
          fun _ => ⟨rfl, rfl⟩, fun h0 => absurd h0 (by omega)⟩
      · rename_i hneg
        simp only [Option.some.injEq, Prod.mk.injEq] at h
        obtain ⟨h1, h2⟩ := h
        subst h1; subst h2
        refine ⟨by omega, by omega, rfl, rfl, rfl, rfl, ⟨err, htr, fun h0 => absurd h0 hneg⟩,
          fun h0 => absurd h0 hneg, fun _ => ⟨rfl, rfl, fun a => rfl⟩⟩
  · simp at h

theorem waitOnly_refl (w : World) : WaitOnly w w :=
  ⟨rfl, rfl, rfl, [], by simp, by intro c hc; simp at hc⟩

theorem waitOnly_trans {w w1 w2 : World} (h1 : WaitOnly w w1) (h2 : WaitOnly w1 w2) :
    WaitOnly w w2 := by
  obtain ⟨a1, b1, c1, n1, d1, e1⟩ := h1
  obtain ⟨a2, b2, c2, n2, d2, e2⟩ := h2
  refine ⟨a2.trans a1, b2.trans b1, c2.trans c1, n1 ++ n2, ?_, ?_⟩
  · rw [d2, d1, List.append_assoc]
  · intro c hc
    rcases List.mem_append.mp hc with h | h
    · exact e1 c h
    · exact e2 c h

theorem poll_wrap_loop_waitOnly (fds : List Int) (nfds : Nat) (start : Int) :
    ∀ (fuel : Nat) (rest_timeout : Int) (w w1 : World) (r : Int),
      poll_wrap_loop fds nfds start fuel rest_timeout w = some (r, w1) → WaitOnly w w1 := by
  intro fuel
  induction fuel with
  | zero => intro rt w w1 r h; simp [poll_wrap_loop] at h
  | succ fuel ih =>
    intro rt w w1 r h
    rw [poll_wrap_loop] at h
    split at h
    · simp at h
    · rename_i ret_val wp hp
      obtain ⟨m, p, q, _, _, c, _⟩ := sys_poll_spec _ _ _ _ _ _ hp
      have hwp : WaitOnly w wp :=
        ⟨m, p, q, [Call.poll fds nfds (toInt32 rt) ret_val], c, by
          intro x hx; simp at hx; exact ⟨_, _, _, _, hx⟩⟩
      split at h
      · simp only [Option.some.injEq, Prod.mk.injEq] at h
        obtain ⟨_, h2⟩ := h
        subst h2; exact hwp
      · split at h
        · simp only [Option.some.injEq, Prod.mk.injEq] at h
          obtain ⟨_, h2⟩ := h
          subst h2
          exact hwp
        · split at h
          · dsimp only at h
            have hn : WaitOnly wp (now wp).2 := waitOnly_refl wp
            split at h
            · exact waitOnly_trans hwp (waitOnly_trans hn (ih _ _ _ _ h))
            · simp only [Option.some.injEq, Prod.mk.injEq] at h
              obtain ⟨_, h2⟩ := h
              subst h2
              exact hwp
          · simp only [Option.some.injEq, Prod.mk.injEq] at h
            obtain ⟨_, h2⟩ := h
            subst h2; exact hwp

theorem poll_wrap_waitOnly (fdarray : Option (List Int)) (nfds : Nat) (timeout_ms : Int)
    (w w1 : World) (r : Int) (h : poll_wrap fdarray nfds timeout_ms w = some (r, w1)) :
    WaitOnly w w1 := by
  unfold poll_wrap at h
  split at h
  · simp only [Option.some.injEq, Prod.mk.injEq] at h
    obtain ⟨_, h2⟩ := h
    subst h2; exact waitOnly_refl _
  · split at h
    · simp only [Option.some.injEq, Prod.mk.injEq] at h
      obtain ⟨_, h2⟩ := h
      subst h2; exact waitOnly_refl _
    · dsimp only at h
      have hn : WaitOnly w (now w).2 := waitOnly_refl w
      exact waitOnly_trans hn (poll_wrap_loop_waitOnly _ _ _ _ _ _ _ _ h)

/-! ## One iteration of the accumulating read -/

/-- The cases of one iteration of the loop of `ghead::sync_read_n_tmo` that
ends or continues a run, for a remaining count below `2^32`. -/
theorem sync_read_loop_step (fd : Int) (nbytes : Nat) (timeout_ms : Int) (fuel ptr nleft : Nat)
    (w wf : World) (r : Int) (hpos : 0 < nleft) (hlt : nleft < 4294967296)
    (h : sync_read_loop fd nbytes timeout_ms (fuel + 1) ptr nleft w = some (r, wf)) :
    ∃ presult w1, poll_wrap (some [fd]) 1 timeout_ms w = some (presult, w1) ∧
      ((presult = 0 ∧ r = read_count nbytes nleft ∧ wf = w1)
      ∨ (presult < 0 ∧ r = -1 ∧ wf = w1)
      ∨ (0 < presult ∧ ∃ ret w2, sys_read fd ptr nleft w1 = some (ret, w2) ∧
          ((toInt32 ret < 0 ∧ w2.errno = EINTR
              ∧ sync_read_loop fd nbytes timeout_ms fuel ptr nleft w2 = some (r, wf))
          ∨ (toInt32 ret < 0 ∧ w2.errno ≠ EINTR ∧ r = -1 ∧ wf = w2)
          ∨ (ret = 0 ∧ r = read_count nbytes nleft ∧ wf = w2)
          ∨ (0 < ret ∧ ret < 2147483648
              ∧ sync_read_loop fd nbytes timeout_ms fuel (ptr + ret.toNat)
                  (nleft - ret.toNat) w2 = some (r, wf))))) := by
  rw [sync_read_loop, if_pos hpos] at h
  split at h
  · simp at h
  · rename_i presult w1 hw
    refine ⟨presult, w1, hw, ?_⟩
    split at h
    · rename_i hp
      right; right
      refine ⟨hp, ?_⟩
      split at h
      · simp at h
      · rename_i ret w2 hs
        refine ⟨ret, w2, hs, ?_⟩
        obtain ⟨hlo, hhi, -⟩ := sys_read_spec _ _ _ _ _ _ hs
        dsimp only at h
        split at h
        · rename_i hneg
          split at h
          · rename_i he
            exact Or.inl ⟨hneg, he, h⟩
          · rename_i he
            simp only [Option.some.injEq, Prod.mk.injEq] at h
            exact Or.inr (Or.inl ⟨hneg, he, h.1.symm, h.2.symm⟩)
        · rename_i hneg
          split at h
          · rename_i hz
            simp only [Option.some.injEq, Prod.mk.injEq] at h
            refine Or.inr (Or.inr (Or.inl ⟨?_, h.1.symm, h.2.symm⟩))
            unfold toInt32 at hz; omega
          · rename_i hz
            have hr : 0 < ret ∧ ret < 2147483648 := by
              unfold toInt32 at hz hneg; omega
            have e1 : toInt32 ret = ret := toInt32_of_range _ (by omega) (by omega)
            have e2 : toSizeT ((nleft : Int) - ret) = nleft - ret.toNat := by
              rw [toSizeT_of_range _ (by omega) (by omega)]; omega
            rw [e1, e2] at h
            exact Or.inr (Or.inr (Or.inr ⟨hr.1, hr.2, h⟩))
    · rename_i hp
      split at h
      · rename_i hz
        simp only [Option.some.injEq, Prod.mk.injEq] at h
        exact Or.inl ⟨hz, h.1.symm, h.2.symm⟩
      · rename_i hz
        simp only [Option.some.injEq, Prod.mk.injEq] at h
        exact Or.inr (Or.inl ⟨by omega, h.1.symm, h.2.symm⟩)

theorem sync_read_loop_done (fd : Int) (nbytes : Nat) (timeout_ms : Int) (fuel ptr : Nat)
    (w : World) :
    sync_read_loop fd nbytes timeout_ms fuel ptr 0 w = some (read_count nbytes 0, w) := by
  cases fuel <;> simp [sync_read_loop]

/-! ## Where the accumulating read stores bytes -/

theorem within_refl (lo hi : Nat) (w : World) : Within lo hi w w :=
  ⟨rfl, fun _ _ => rfl, [], by simp, by intro fd q cnt ret hc; simp at hc⟩

theorem within_trans {lo hi : Nat} {w w1 w2 : World} (h1 : Within lo hi w w1)
    (h2 : Within lo hi w1 w2) : Within lo hi w w2 := by
  obtain ⟨p1, m1, n1, c1, r1⟩ := h1
  obtain ⟨p2, m2, n2, c2, r2⟩ := h2
  refine ⟨p2.trans p1, fun a ha => (m2 a ha).trans (m1 a ha), n1 ++ n2, ?_, ?_⟩
  · rw [c2, c1, List.append_assoc]
  · intro fd q cnt ret hc
    rcases List.mem_append.mp hc with h | h
    · exact r1 fd q cnt ret h
    · exact r2 fd q cnt ret h

theorem within_mono {lo hi lo1 hi1 : Nat} {w wf : World} (h : Within lo1 hi1 w wf)
    (hlo : lo ≤ lo1) (hhi : hi1 ≤ hi) : Within lo hi w wf := by
  obtain ⟨p, m, n, c, r⟩ := h
  refine ⟨p, fun a ha => m a (by omega), n, c, ?_⟩
  intro fd q cnt ret hc
  obtain ⟨a1, a2, a3, a4⟩ := r fd q cnt ret hc
  exact ⟨by omega, by omega, a3, a4⟩

theorem waitOnly_within {w w1 : World} (h : WaitOnly w w1) (lo hi : Nat) :
    Within lo hi w w1 := by
  obtain ⟨m, p, _, n, c, e⟩ := h
  refine ⟨p, fun a _ => by rw [m], n, c, ?_⟩
  intro fd q cnt ret hc
  obtain ⟨_, _, _, _, hx⟩ := e _ hc
  simp at hx

theorem sys_read_within (fd : Int) (ptr count : Nat) (w w2 : World) (ret : Int)
    (hc : 0 < count) (h : sys_read fd ptr count w = some (ret, w2)) :
    Within ptr (ptr + count) w w2 := by
  obtain ⟨hlo, hhi, hp, _, _, hcalls, _, hneg, hnn⟩ := sys_read_spec _ _ _ _ _ _ h
  refine ⟨hp, ?_, [Call.read fd ptr count ret], hcalls, ?_⟩
  · intro a ha
    by_cases h0 : ret < 0
    · rw [(hneg h0).1]
    · rw [(hnn (by omega)).2.2 a, if_neg (by omega)]
  · intro fd1 q cnt r1 hm
    simp only [List.mem_singleton, Call.read.injEq] at hm
    obtain ⟨_, h2, h3, h4⟩ := hm
    subst h2; subst h3; subst h4
    exact ⟨le_refl _, le_refl _, hc, hhi⟩

/-- Safety of the loop of `ghead::sync_read_n_tmo`: a run started with the
cursor at `ptr` and `nleft` bytes to go stores bytes in `[ptr, ptr + nleft)`
only. -/
theorem sync_read_loop_within (fd : Int) (nbytes : Nat) (timeout_ms : Int) :
    ∀ (fuel ptr nleft : Nat) (w wf : World) (r : Int), nleft < 4294967296 →
      sync_read_loop fd nbytes timeout_ms fuel ptr nleft w = some (r, wf) →
      Within ptr (ptr + nleft) w wf := by
  intro fuel
  induction fuel with
  | zero =>
    intro ptr nleft w wf r _ h
    simp only [sync_read_loop] at h
    split at h
    · simp at h
    · simp only [Option.some.injEq, Prod.mk.injEq] at h
      rw [← h.2]; exact within_refl _ _ _
  | succ fuel ih =>
    intro ptr nleft w wf r hlt h
    rcases Nat.eq_zero_or_pos nleft with hz | hpos
    · subst hz
      rw [sync_read_loop_done] at h
      simp only [Option.some.injEq, Prod.mk.injEq] at h
      rw [← h.2]; exact within_refl _ _ _
    · obtain ⟨presult, w1, hw, hcase⟩ :=
        sync_read_loop_step fd nbytes timeout_ms fuel ptr nleft w wf r hpos hlt h
      have hw1 : Within ptr (ptr + nleft) w w1 :=
        waitOnly_within (poll_wrap_waitOnly _ _ _ _ _ _ hw) _ _
      rcases hcase with ⟨_, _, e⟩ | ⟨_, _, e⟩ | ⟨_, ret, w2, hs, hrd⟩
      · rw [e]; exact hw1
      · rw [e]; exact hw1
      · have hw2 : Within ptr (ptr + nleft) w w2 :=
          within_trans hw1 (sys_read_within _ _ _ _ _ _ hpos hs)
        obtain ⟨hlo, hhi, -⟩ := sys_read_spec _ _ _ _ _ _ hs
        rcases hrd with ⟨_, _, hrec⟩ | ⟨_, _, _, e⟩ | ⟨_, _, e⟩ | ⟨h0, h1, hrec⟩
        · exact within_trans hw2 (ih _ _ _ _ _ hlt hrec)
        · rw [e]; exact hw2
        · rw [e]; exact hw2
        · have := ih _ _ _ _ _ (by omega) hrec
          exact within_trans hw2 (within_mono this (by omega) (by omega))

theorem sync_read_n_tmo_within (fd : Int) (p nbytes : Nat) (timeout_ms : Int) (w wf : World)
    (r : Int) (hlt : nbytes < 4294967296)
    (h : sync_read_n_tmo fd (some p) nbytes timeout_ms w = some (r, wf)) :
    Within p (p + nbytes) w wf := by
  rcases Nat.eq_zero_or_pos nbytes with hz | hpos
  · subst hz
    simp only [sync_read_n_tmo, if_true, Option.some.injEq, Prod.mk.injEq] at h
    rw [← h.2]; exact within_refl _ _ _
  · rw [sync_read_n_tmo_some _ _ _ _ _ hpos] at h
    exact sync_read_loop_within _ _ _ _ _ _ _ _ _ hlt h

/-! ## What the accumulating read returns -/

/-- The result of the loop of `ghead::sync_read_n_tmo` for a request below
`2^31` bytes: either `-1`, or the count `nbytes - nleft + n` where `n` is the
number of bytes taken from the peer during the run, stored in arrival order
from the cursor on. -/
theorem sync_read_loop_count (fd : Int) (nbytes : Nat) (timeout_ms : Int)
    (hn : nbytes < 2147483648) :
    ∀ (fuel ptr nleft : Nat) (w wf : World) (r : Int), nleft ≤ nbytes →
      sync_read_loop fd nbytes timeout_ms fuel ptr nleft w = some (r, wf) →
      r = -1 ∨ ∃ n, n ≤ nleft ∧ r = ((nbytes - nleft + n : Nat) : Int)
        ∧ wf.pos = w.pos + n ∧ ∀ i, i < n → wf.mem (ptr + i) = w.peer (w.pos + i) := by
  intro fuel
  induction fuel with
  | zero =>
    intro ptr nleft w wf r hle h
    simp only [sync_read_loop] at h
    split at h
    · simp at h
    · simp only [Option.some.injEq, Prod.mk.injEq] at h
      exact Or.inr ⟨0, Nat.zero_le _, by
        rw [← h.1, read_count_of_le _ _ hle (by omega)]; simp, by rw [← h.2]; rfl,
        fun i hi => absurd hi (by omega)⟩
  | succ fuel ih =>
    intro ptr nleft w wf r hle h
    have stop : ∀ w1 : World, w1.pos = w.pos → r = read_count nbytes nleft → wf = w1 →
        r = -1 ∨ ∃ n, n ≤ nleft ∧ r = ((nbytes - nleft + n : Nat) : Int)
          ∧ wf.pos = w.pos + n ∧ ∀ i, i < n → wf.mem (ptr + i) = w.peer (w.pos + i) := by
      intro w1 hp hr e
      refine Or.inr ⟨0, Nat.zero_le _, ?_, by rw [e, hp]; rfl, fun i hi => absurd hi (by omega)⟩
      rw [hr, read_count_of_le _ _ hle (by omega)]; simp
    rcases Nat.eq_zero_or_pos nleft with hz | hpos
    · subst hz
      rw [sync_read_loop_done] at h
      simp only [Option.some.injEq, Prod.mk.injEq] at h
      exact stop w rfl h.1.symm h.2.symm
    · obtain ⟨presult, w1, hw, hcase⟩ :=
        sync_read_loop_step fd nbytes timeout_ms fuel ptr nleft w wf r hpos (by omega) h
      obtain ⟨wm, wp, wpos, -⟩ := poll_wrap_waitOnly _ _ _ _ _ _ hw
      rcases hcase with ⟨_, hr, e⟩ | ⟨_, hr, _⟩ | ⟨_, ret, w2, hs, hrd⟩
      · exact stop w1 wpos hr e
      · exact Or.inl hr
      · obtain ⟨hlo, hhi, hpeer, _, _, _, _, hneg, hnn⟩ := sys_read_spec _ _ _ _ _ _ hs
        rcases hrd with ⟨hlt0, _, hrec⟩ | ⟨_, _, hr, _⟩ | ⟨h0, hr, e⟩ | ⟨h0, h1, hrec⟩
        · have hret : ret < 0 := by unfold toInt32 at hlt0; omega
          obtain ⟨hm2, hp2⟩ := hneg hret
          rcases ih _ _ _ _ _ hle hrec with h1 | ⟨n, a, b, c, d⟩
          · exact Or.inl h1
          · refine Or.inr ⟨n, a, b, by rw [c, hp2, wpos], fun i hi => ?_⟩
            rw [d i hi, hpeer, wp, hp2, wpos]
        · exact Or.inl hr
        · obtain ⟨_, hp2, _⟩ := hnn (by omega)
          exact stop w2 (by rw [hp2, h0, wpos]; rfl) hr e
        · obtain ⟨_, hp2, hm2⟩ := hnn (by omega)
          have hfr := sync_read_loop_within fd nbytes timeout_ms _ _ _ _ _ _ (by omega) hrec
          rcases ih _ _ _ _ _ (by omega) hrec with h1 | ⟨n, a, b, c, d⟩
          · exact Or.inl h1
          · refine Or.inr ⟨ret.toNat + n, by omega, ?_, by rw [c, hp2, wpos]; omega, ?_⟩
            · rw [b]; congr 1; omega
            · intro i hi
              by_cases hi2 : i < ret.toNat
              · rw [hfr.2.1 (ptr + i) (Or.inl (by omega)), hm2 (ptr + i),
                  if_pos ⟨by omega, by omega⟩, wp, wpos]
                congr 2; omega
              · have := d (i - ret.toNat) (by omega)
                rw [show ptr + ret.toNat + (i - ret.toNat) = ptr + i by omega] at this
                rw [this, hpeer, wp, hp2, wpos]
                congr 1; omega

/-- The result of `ghead::sync_read_n_tmo` for a request of `0 < nbytes < 2^31`
bytes: either `-1`, or a count `n <= nbytes` of bytes taken from the peer and
stored in arrival order at `p`. -/
theorem sync_read_n_tmo_count (fd : Int) (p nbytes : Nat) (timeout_ms : Int) (w wf : World)
    (r : Int) (hpos : 0 < nbytes) (hn : nbytes < 2147483648)
    (h : sync_read_n_tmo fd (some p) nbytes timeout_ms w = some (r, wf)) :
    r = -1 ∨ ∃ n, n ≤ nbytes ∧ r = (n : Int)
      ∧ wf.pos = w.pos + n ∧ ∀ i, i < n → wf.mem (p + i) = w.peer (w.pos + i) := by
  rw [sync_read_n_tmo_some _ _ _ _ _ hpos] at h
  rcases sync_read_loop_count fd nbytes timeout_ms hn _ _ _ _ _ _ (le_refl _) h with
    h1 | ⟨n, a, b, c, d⟩
  · exact Or.inl h1
  · exact Or.inr ⟨n, a, by rw [b]; congr 1; omega, c, d⟩

/-! ## Runs against a peer that delivers chunks -/

theorem length_deliver (cs : List (Int × Nat)) : (deliver cs).length = 2 * cs.length := by
  induction cs with
  | nil => rfl
  | cons c cs ih => simp only [deliver, List.length_cons, ih]; omega

theorem total_eq_zero (cs : List (Int × Nat)) (hp : ∀ c ∈ cs, 0 < c.1 ∧ 0 < c.2)
    (h : total cs = 0) : cs = [] := by
  cases cs with
  | nil => rfl
  | cons c cs =>
    have := (hp c (List.mem_cons_self _ _)).2
    simp only [total] at h
    omega

/-- A readiness wait whose first `poll` reports ready returns that result at
once and leaves `errno` alone. -/
theorem poll_wrap_ready (fds : List Int) (nfds : Nat) (timeout_ms : Int) (w : World)
    (pr e : Int) (tl : List Ev) (hn : nfds ≠ 0) (htr : w.trace = Ev.poll pr e :: tl)
    (hpr : 0 < pr) :
    ∃ w1, poll_wrap (some fds) nfds timeout_ms w = some (pr, w1) ∧ w1.trace = tl
      ∧ w1.errno = w.errno := by
  unfold poll_wrap
  simp only [if_neg hn]
  rw [poll_wrap_loop]
  simp only [sys_poll, now, htr]
  rw [if_pos hpr]
  exact ⟨_, rfl, rfl, by simp only; rw [if_neg (by omega)]⟩

/-- A readiness wait whose first `poll` returns 0 reports the timeout. -/
theorem poll_wrap_timeout (fds : List Int) (nfds : Nat) (timeout_ms : Int) (w : World)
    (e : Int) (tl : List Ev) (hn : nfds ≠ 0) (htr : w.trace = Ev.poll 0 e :: tl) :
    ∃ w1, poll_wrap (some fds) nfds timeout_ms w = some (0, w1) ∧ w1.trace = tl
      ∧ w1.errno = ETIMEDOUT := by
  unfold poll_wrap
  simp only [if_neg hn]
  rw [poll_wrap_loop]
  simp only [sys_poll, now, htr]
  rw [if_pos trivial]
  exact ⟨_, rfl, rfl, rfl⟩

/-- A `read` that returns `c` bytes, `0 <= c <= count`. -/
theorem sys_read_ok (fd : Int) (ptr count : Nat) (w : World) (c : Nat) (e : Int)
    (tl : List Ev) (htr : w.trace = Ev.read c e :: tl) (hc : c ≤ count)
    (hcap : c ≤ 2147479552) :
    ∃ w2, sys_read fd ptr count w = some ((c : Int), w2) ∧ w2.trace = tl
      ∧ w2.errno = w.errno := by
  simp only [sys_read, htr]
  rw [if_neg (by omega), if_neg (by omega)]
  exact ⟨_, rfl, rfl, rfl⟩

/-- The loop of `ghead::sync_read_n_tmo` against a peer that delivers the
chunks `cs`: after one iteration per chunk the loop stands at the cursor
`ptr + total cs` with `nleft - total cs` bytes to go, the outcomes of the
chunks consumed and `errno` as before. -/
theorem sync_read_loop_deliver (fd : Int) (nbytes : Nat) (timeout_ms : Int) :
    ∀ (cs : List (Int × Nat)) (fuel ptr nleft : Nat) (w : World) (tl : List Ev),
      (∀ c ∈ cs, 0 < c.1 ∧ 0 < c.2 ∧ c.2 ≤ 2147479552) → total cs ≤ nleft →
      nleft < 18446744073709551616 → w.trace = deliver cs ++ tl →
      ∃ w1, sync_read_loop fd nbytes timeout_ms (fuel + cs.length) ptr nleft w
            = sync_read_loop fd nbytes timeout_ms fuel (ptr + total cs) (nleft - total cs) w1
          ∧ w1.trace = tl ∧ w1.errno = w.errno := by
  intro cs
  induction cs with
  | nil =>
    intro fuel ptr nleft w tl _ _ _ htr
    exact ⟨w, by simp [total], by simpa [deliver] using htr, rfl⟩
  | cons c cs ih =>
    intro fuel ptr nleft w tl hpos hle hlt htr
    obtain ⟨hc1, hc2, hc3⟩ := hpos c (List.mem_cons_self _ _)
    simp only [total] at hle
    simp only [deliver, List.cons_append] at htr
    obtain ⟨w1, hpw, htr1, herr1⟩ :=
      poll_wrap_ready [fd] 1 timeout_ms w c.1 0 _ (by omega) htr hc1
    obtain ⟨w2, hsr, htr2, herr2⟩ :=
      sys_read_ok fd ptr nleft w1 c.2 0 _ htr1 (by omega) hc3
    obtain ⟨w3, hrec, htr3, herr3⟩ := ih fuel (ptr + c.2) (nleft - c.2) w2 tl
      (fun x hx => hpos x (List.mem_cons_of_mem _ hx)) (by omega) (by omega) htr2
    refine ⟨w3, ?_, htr3, by rw [herr3, herr2, herr1]⟩
    have e2 : toSizeT ((nleft : Int) - (c.2 : Int)) = nleft - c.2 := by
      rw [toSizeT_of_range _ (by omega) (by omega)]; omega
    have n0 : nleft > 0 := by omega
    have n1 : ¬ ((c.2 : Int) < 0) := by omega
    have n2 : ¬ ((c.2 : Int) = 0) := by omega
    have e3 : ptr + c.2 + total cs = ptr + total (c :: cs) := by simp only [total]; omega
    have e4 : nleft - c.2 - total cs = nleft - total (c :: cs) := by simp only [total]; omega
    have e1 : toInt32 (c.2 : Int) = (c.2 : Int) := toInt32_of_range _ (by omega) (by omega)
    rw [List.length_cons, ← Nat.add_assoc, sync_read_loop, if_pos n0, hpw]
    simp only [gt_iff_lt, hc1, if_true, hsr, e1, n1, n2, if_false, Int.toNat_ofNat, e2]
    rw [hrec, e3, e4]

/-! ## Evaluations at concrete inputs -/

/-- Claim C1, at a body of `2^31` bytes: the peer sends a header with the
right magic and `body_len = 2^31`, then the body in two reads of `2^30`
bytes, every wait reports ready and the buffer holds `12 + 2^31` bytes.
`ghead::read` consumes all `12 + 2^31` bytes and every outcome of the trace,
and returns `RET_READ`, not `RET_SUCCESS`: the count `2^31` returned by
`sync_read_n_tmo` becomes `-2^31` in `int rlen`. -/
theorem C1_body_2pow31_returns_read_failure :
    (read wire12 3 (some 0) (12 + 2147483648) 50
        (world0 (streamOf hdrBig 104)
          [Ev.poll 1 0, Ev.read 12 0, Ev.poll 1 0, Ev.read 1073741824 0,
           Ev.poll 1 0, Ev.read 1073741824 0])).map
        (fun r => (r.1, r.2.pos, r.2.trace))
      = some (RET_READ, 12 + 2147483648, []) := by
  decide

/-- Claim C5, at `k = 0`: the peer delivers no header byte and the first
readiness wait reports a timeout.  `ghead::read` returns `RET_PEARCLOSE`,
neither `RET_READHEAD` nor `RET_ETIMEDOUT`, although `poll_wrap` has set
`errno` to `ETIMEDOUT`. -/
theorem C5_timeout_before_first_byte_returns_peer_close :
    (read wire12 3 (some 0) 100 50 (world0 (streamOf hdr5 104) [Ev.poll 0 0])).map
        (fun r => (r.1, r.2.errno, r.2.pos))
      = some (RET_PEARCLOSE, ETIMEDOUT, 0) := by
  decide

/-- Claim C10, at `timeout_ms = -1`: the first `poll` is interrupted by
`EINTR` and a second `poll` would report readiness.  `ghead::poll_wrap`
returns the timeout result `0` with `errno = ETIMEDOUT` after the single
`poll` call: the wait is not issued again and the pending readiness outcome
stays unconsumed. -/
theorem C10_blocking_wait_returns_timeout_on_eintr :
    (poll_wrap (some [3]) 1 (-1)
        (world0 (fun _ => 0) [Ev.poll (-1) EINTR, Ev.poll 1 0])).map
        (fun r => (r.1, r.2.errno, r.2.trace, r.2.calls))
      = some (0, ETIMEDOUT, [Ev.poll 1 0], [Call.poll [3] 1 (-1) (-1)]) := by
  decide

/-- Claim C7, at `k = 0`: the header announces 5 body bytes, the peer closes
before the first body byte (the first `read` of the body phase returns 0).
`ghead::read` returns `RET_PEARCLOSE`, not `RET_READ`. -/
theorem C7_peer_close_before_body_returns_peer_close :
    code (read wire12 3 (some 0) 100 50
        (world0 (streamOf hdr5 104)
          [Ev.poll 1 0, Ev.read 12 0, Ev.poll 1 0, Ev.read 0 0]))
      = some RET_PEARCLOSE
    ∧ code (read wire12 3 (some 0) 100 50
        (world0 (streamOf hdr5 104)
          [Ev.poll 1 0, Ev.read 12 0, Ev.poll 1 0, Ev.read 0 0]))
      ≠ some RET_READ := by
  decide

/-! ## The gates of `ghead::read` -/

/-- With valid parameters `ghead::read` that has left the header phase with
the count `r` continues with the tests on `rlen`. -/
theorem read_of_header (L : Layout) (sock : Int) (hp buflen : Nat) (timeout : Int)
    (w w1 : World) (r : Int) (hsock : 0 ≤ sock) (hbuf : L.size ≤ buflen)
    (hhead : sync_read_n_tmo sock (some hp) L.size timeout w = some (r, w1)) :
    read L sock (some hp) buflen timeout w =
      if toInt32 r ≤ 0 then some (ghead_read_fail (toInt32 r) w1, w1)
      else if toSizeT (toInt32 r) ≠ L.size then some (RET_READHEAD, w1)
      else if load32 w1.mem (hp + L.off_magic_num) ≠ GHEAD_MAGICNUM then
        some (RET_EMAGICNUM, w1)
      else if buflen < toSizeT ((L.size : Int) + load32 w1.mem (hp + L.off_body_len)) then
        some (RET_EBODYLEN, w1)
      else if load32 w1.mem (hp + L.off_body_len) > 0 then
        match sync_read_n_tmo sock (some (hp + L.size))
            (load32 w1.mem (hp + L.off_body_len)) timeout w1 with
        | none => none
        | some (r2, w2) =>
          if toInt32 r2 ≤ 0 then some (ghead_read_fail (toInt32 r2) w2, w2)
          else if toInt32 r2 ≠ toInt32 (load32 w2.mem (hp + L.off_body_len)) then
            some (RET_READ, w2)
          else some (RET_SUCCESS, w2)
      else some (RET_SUCCESS, w1) := by
  have n1 : ¬ (sock < 0 ∨ some hp = none ∨ buflen < L.size) := by
    simp only [reduceCtorEq, false_or]; omega
  unfold read off_body
  rw [if_neg n1]
  simp only [Option.getD_some, hhead]

theorem load32_congr (m1 m2 : Nat → Nat) (a : Nat)
    (h : ∀ x, a ≤ x → x < a + 4 → m1 x = m2 x) : load32 m1 a = load32 m2 a := by
  unfold load32
  rw [h a (by omega) (by omega), h (a + 1) (by omega) (by omega),
    h (a + 2) (by omega) (by omega), h (a + 3) (by omega) (by omega)]

/-- The header phase returns `-1` or a count between 0 and `sizeof(ghead)`. -/
theorem header_count_range (L : Layout) (sock : Int) (hp : Nat) (timeout : Int)
    (w w1 : World) (r : Int)
    (h : sync_read_n_tmo sock (some hp) L.size timeout w = some (r, w1)) :
    -1 ≤ r ∧ r ≤ L.size := by
  have h1 := L.size_lt
  have h2 := L.magic_num_in
  rcases sync_read_n_tmo_count sock hp L.size timeout w w1 r (by omega) h1 h with
    e | ⟨n, a, b, -⟩
  · omega
  · omega

/-- The runs of `ghead::read` with valid parameters, gate by gate: `r` and
`w1` are the count and the world left by the header phase. -/
theorem read_inv (L : Layout) (sock : Int) (hp buflen : Nat) (timeout : Int)
    (w wf : World) (rc : RETURN_CODE) (hsock : 0 ≤ sock) (hbuf : L.size ≤ buflen)
    (h : read L sock (some hp) buflen timeout w = some (rc, wf)) :
    ∃ r w1, sync_read_n_tmo sock (some hp) L.size timeout w = some (r, w1) ∧
      ((r ≤ 0 ∧ rc = ghead_read_fail r w1 ∧ wf = w1)
      ∨ (0 < r ∧ r < L.size ∧ rc = RET_READHEAD ∧ wf = w1)
      ∨ (r = L.size ∧ load32 w1.mem (hp + L.off_magic_num) ≠ GHEAD_MAGICNUM
          ∧ rc = RET_EMAGICNUM ∧ wf = w1)
      ∨ (r = L.size ∧ load32 w1.mem (hp + L.off_magic_num) = GHEAD_MAGICNUM
          ∧ buflen < L.size + load32 w1.mem (hp + L.off_body_len)
          ∧ rc = RET_EBODYLEN ∧ wf = w1)
      ∨ (r = L.size ∧ load32 w1.mem (hp + L.off_magic_num) = GHEAD_MAGICNUM
          ∧ L.size + load32 w1.mem (hp + L.off_body_len) ≤ buflen
          ∧ load32 w1.mem (hp + L.off_body_len) = 0 ∧ rc = RET_SUCCESS ∧ wf = w1)
      ∨ (r = L.size ∧ load32 w1.mem (hp + L.off_magic_num) = GHEAD_MAGICNUM
          ∧ L.size + load32 w1.mem (hp + L.off_body_len) ≤ buflen
          ∧ 0 < load32 w1.mem (hp + L.off_body_len)
          ∧ ∃ r2, sync_read_n_tmo sock (some (hp + L.size))
                (load32 w1.mem (hp + L.off_body_len)) timeout w1 = some (r2, wf)
              ∧ rc = if toInt32 r2 ≤ 0 then ghead_read_fail (toInt32 r2) wf
                  else if toInt32 r2 ≠ toInt32 (load32 wf.mem (hp + L.off_body_len)) then
                    RET_READ
                  else RET_SUCCESS)) := by
  have h1 := L.size_lt
  have h2 := L.magic_num_in
  cases hh : sync_read_n_tmo sock (some hp) L.size timeout w with
  | none =>
    have n1 : ¬ (sock < 0 ∨ some hp = none ∨ buflen < L.size) := by
      simp only [reduceCtorEq, false_or]; omega
    unfold read at h
    rw [if_neg n1] at h
    simp only [Option.getD_some, hh] at h
    simp at h
  | some x =>
    obtain ⟨r, w1⟩ := x
    refine ⟨r, w1, rfl, ?_⟩
    obtain ⟨hr0, hr1⟩ := header_count_range L sock hp timeout w w1 r hh
    have e1 : toInt32 r = r := toInt32_of_range _ (by omega) (by omega)
    have h3 := load32_lt w1.mem (hp + L.off_body_len)
    have e3 : toSizeT ((L.size : Int) + (load32 w1.mem (hp + L.off_body_len) : Int))
        = L.size + load32 w1.mem (hp + L.off_body_len) := by
      have := toSizeT_natCast (L.size + load32 w1.mem (hp + L.off_body_len)) (by omega)
      simpa using this
    rw [read_of_header L sock hp buflen timeout w w1 r hsock hbuf hh, e1, e3] at h
    split at h
    · rename_i c1
      simp only [Option.some.injEq, Prod.mk.injEq] at h
      exact Or.inl ⟨c1, h.1.symm, h.2.symm⟩
    · rename_i c1
      split at h
      · rename_i c2
        simp only [Option.some.injEq, Prod.mk.injEq] at h
        refine Or.inr (Or.inl ⟨by omega, ?_, h.1.symm, h.2.symm⟩)
        rw [toSizeT_of_range _ (by omega) (by omega)] at c2
        omega
      · rename_i c2
        have er : r = L.size := by
          rw [toSizeT_of_range _ (by omega) (by omega)] at c2
          omega
        split at h
        · rename_i c3
          simp only [Option.some.injEq, Prod.mk.injEq] at h
          exact Or.inr (Or.inr (Or.inl ⟨er, c3, h.1.symm, h.2.symm⟩))
        · rename_i c3
          have c3 := not_not.mp c3
          split at h
          · rename_i c4
            simp only [Option.some.injEq, Prod.mk.injEq] at h
            exact Or.inr (Or.inr (Or.inr (Or.inl ⟨er, c3, c4, h.1.symm, h.2.symm⟩)))
          · rename_i c4
            split at h
            · rename_i c5
              refine Or.inr (Or.inr (Or.inr (Or.inr (Or.inr
                ⟨er, c3, by omega, c5, ?_⟩))))
              split at h
              · simp at h
              · rename_i r2 w2 hb
                refine ⟨r2, ?_⟩
                split at h
                · rename_i c6
                  simp only [Option.some.injEq, Prod.mk.injEq] at h
                  obtain ⟨ha, hb2⟩ := h
                  subst hb2
                  exact ⟨hb, by rw [if_pos c6]; exact ha.symm⟩
                · rename_i c6
                  split at h
                  · rename_i c7
                    simp only [Option.some.injEq, Prod.mk.injEq] at h
                    obtain ⟨ha, hb2⟩ := h
                    subst hb2
                    exact ⟨hb, by rw [if_neg c6, if_pos c7]; exact ha.symm⟩
                  · rename_i c7
                    simp only [Option.some.injEq, Prod.mk.injEq] at h
                    obtain ⟨ha, hb2⟩ := h
                    subst hb2
                    exact ⟨hb, by rw [if_neg c6, if_neg c7]; exact ha.symm⟩
            · rename_i c5
              simp only [Option.some.injEq, Prod.mk.injEq] at h
              exact Or.inr (Or.inr (Or.inr (Or.inr (Or.inl
                ⟨er, c3, by omega, by omega, h.1.symm, h.2.symm⟩))))

/-- What `ghead::read` does once the header phase has returned the full
header: the remaining gates in source order. -/
theorem read_after_header (L : Layout) (sock : Int) (hp buflen : Nat) (timeout : Int)
    (w w1 : World) (hsock : 0 ≤ sock) (hbuf : L.size ≤ buflen)
    (hhead : sync_read_n_tmo sock (some hp) L.size timeout w = some ((L.size : Int), w1)) :
    read L sock (some hp) buflen timeout w =
      if load32 w1.mem (hp + L.off_magic_num) ≠ GHEAD_MAGICNUM then some (RET_EMAGICNUM, w1)
      else if buflen < L.size + load32 w1.mem (hp + L.off_body_len) then
        some (RET_EBODYLEN, w1)
      else if load32 w1.mem (hp + L.off_body_len) > 0 then
        match sync_read_n_tmo sock (some (hp + L.size))
            (load32 w1.mem (hp + L.off_body_len)) timeout w1 with
        | none => none
        | some (r2, w2) =>
          if toInt32 r2 ≤ 0 then some (ghead_read_fail (toInt32 r2) w2, w2)
          else if toInt32 r2 ≠ toInt32 (load32 w2.mem (hp + L.off_body_len)) then
            some (RET_READ, w2)
          else some (RET_SUCCESS, w2)
      else some (RET_SUCCESS, w1) := by
  have h1 := L.size_lt
  have h2 := L.magic_num_in
  have h3 := load32_lt w1.mem (hp + L.off_body_len)
  have e1 : toInt32 (L.size : Int) = (L.size : Int) :=
    toInt32_of_range _ (by omega) (by omega)
  have e2 : toSizeT (L.size : Int) = L.size := toSizeT_natCast _ (by omega)
  have e3 : toSizeT ((L.size : Int) + (load32 w1.mem (hp + L.off_body_len) : Int))
      = L.size + load32 w1.mem (hp + L.off_body_len) := by
    have := toSizeT_natCast (L.size + load32 w1.mem (hp + L.off_body_len)) (by omega)
    simpa using this
  have n2 : ¬ ((L.size : Int) ≤ 0) := by omega
  rw [read_of_header L sock hp buflen timeout w w1 _ hsock hbuf hhead, e1, e2, e3,
    if_neg n2, if_neg (by simp)]

/-- Claim C2: when the header has been read in full and its `magic_num`
differs from `GHEAD_MAGICNUM`, `ghead::read` returns `RET_EMAGICNUM` whatever
`body_len` and `buflen >= sizeof(ghead)` are, and the world it returns is the
one left by the header phase: no further poll or read call is issued. -/
theorem C2_bad_magic (L : Layout) (sock : Int) (hp buflen : Nat) (timeout : Int)
    (w w1 : World) (hsock : 0 ≤ sock) (hbuf : L.size ≤ buflen)
    (hhead : sync_read_n_tmo sock (some hp) L.size timeout w = some ((L.size : Int), w1))
    (hmagic : load32 w1.mem (hp + L.off_magic_num) ≠ GHEAD_MAGICNUM) :
    read L sock (some hp) buflen timeout w = some (RET_EMAGICNUM, w1) := by
  rw [read_after_header L sock hp buflen timeout w w1 hsock hbuf hhead, if_pos hmagic]

/-- Witness of C2: a peer sends a header with magic `0x0e8c4a58` in two reads;
a body outcome is pending in the trace and stays unconsumed. -/
theorem C2_bad_magic_witness :
    read wire12 3 (some 0) 100 50
        (world0 (streamOf hdrBad 104)
          [Ev.poll 1 0, Ev.read 4 0, Ev.poll 1 0, Ev.read 8 0, Ev.poll 1 0, Ev.read 5 0])
      = some (RET_EMAGICNUM,
          worldAfter (sync_read_n_tmo 3 (some 0) 12 50
            (world0 (streamOf hdrBad 104)
              [Ev.poll 1 0, Ev.read 4 0, Ev.poll 1 0, Ev.read 8 0, Ev.poll 1 0, Ev.read 5 0]))
            (world0 (streamOf hdrBad 104) [])) :=
  C2_bad_magic wire12 3 0 100 50 _ _ (by decide) (by decide) rfl (by decide)

/-- Claim C3: when the header has been read in full with the right magic and
`body_len > buflen - sizeof(ghead)`, `ghead::read` returns `RET_EBODYLEN` and
the world it returns is the one left by the header phase: no further poll or
read call is issued and no body byte is consumed from the peer. -/
theorem C3_body_too_large (L : Layout) (sock : Int) (hp buflen : Nat) (timeout : Int)
    (w w1 : World) (hsock : 0 ≤ sock) (hbuf : L.size ≤ buflen)
    (hhead : sync_read_n_tmo sock (some hp) L.size timeout w = some ((L.size : Int), w1))
    (hmagic : load32 w1.mem (hp + L.off_magic_num) = GHEAD_MAGICNUM)
    (hlen : buflen - L.size < load32 w1.mem (hp + L.off_body_len)) :
    read L sock (some hp) buflen timeout w = some (RET_EBODYLEN, w1) := by
  rw [read_after_header L sock hp buflen timeout w w1 hsock hbuf hhead,
    if_neg (by simp [hmagic]), if_pos (by omega)]

/-- Witness of C3: a header announcing 200 body bytes for a buffer of 100. -/
theorem C3_body_too_large_witness :
    read wire12 3 (some 0) 100 50
        (world0 (streamOf hdr200 104)
          [Ev.poll 1 0, Ev.read 12 0, Ev.poll 1 0, Ev.read 88 0])
      = some (RET_EBODYLEN,
          worldAfter (sync_read_n_tmo 3 (some 0) 12 50
            (world0 (streamOf hdr200 104)
              [Ev.poll 1 0, Ev.read 12 0, Ev.poll 1 0, Ev.read 88 0]))
            (world0 (streamOf hdr200 104) [])) :=
  C3_body_too_large wire12 3 0 100 50 _ _ (by decide) (by decide) rfl (by decide)
    (by decide)

/-- Claim C4: `ghead::read` returns `RET_EPARAM` if and only if `sock < 0`, or
`head` is null, or `buflen < sizeof(ghead)`; and whenever it returns
`RET_EPARAM` the world is returned untouched: no poll or read call was
issued and nothing was written. -/
theorem C4_eparam_iff (L : Layout) (sock : Int) (head : Option Nat) (buflen : Nat)
    (timeout : Int) (w : World) :
    (code (read L sock head buflen timeout w) = some RET_EPARAM
        ↔ (sock < 0 ∨ head = none ∨ buflen < L.size))
      ∧ (code (read L sock head buflen timeout w) = some RET_EPARAM
        ↔ read L sock head buflen timeout w = some (RET_EPARAM, w)) := by
  by_cases hv : sock < 0 ∨ head = none ∨ buflen < L.size
  · have hr : read L sock head buflen timeout w = some (RET_EPARAM, w) := by
      unfold read; rw [if_pos hv]
    simp [hr, hv, code]
  · have hr : code (read L sock head buflen timeout w) ≠ some RET_EPARAM := by
      unfold read code ghead_read_fail
      rw [if_neg hv]
      intro h
      repeat (first | split at h | simp at h)
    constructor
    · exact ⟨fun h => absurd h hr, fun h => absurd h hv⟩
    · exact ⟨fun h => absurd h hr, fun h => absurd (by simp [h, code]) hr⟩

/-- Claim C6: with valid parameters, when the first readiness wait reports
ready and the first `read` of the header phase returns 0 bytes, `ghead::read`
returns `RET_PEARCLOSE`; that `read` is the last call issued (the outcomes
after it stay unconsumed), and it stores and consumes nothing. -/
theorem C6_peer_close_before_header (L : Layout) (sock : Int) (hp buflen : Nat)
    (timeout : Int) (w w1 : World) (pr err : Int) (rest : List Ev)
    (hsock : 0 ≤ sock) (hbuf : L.size ≤ buflen)
    (hwait : poll_wrap (some [sock]) 1 timeout w = some (pr, w1)) (hready : 0 < pr)
    (hread : w1.trace = Ev.read 0 err :: rest) :
    (read L sock (some hp) buflen timeout w).map
        (fun r => (r.1, r.2.trace, r.2.calls, r.2.pos))
      = some (RET_PEARCLOSE, rest, w1.calls ++ [Call.read sock hp L.size 0], w1.pos)
    ∧ ∀ a, (worldAfter (read L sock (some hp) buflen timeout w) w).mem a = w1.mem a := by
  have h1 := L.size_lt
  have h2 := L.magic_num_in
  have n1 : ¬ (sock < 0 ∨ buflen < L.size) := by omega
  have hs : sys_read sock hp L.size w1 = some (0, { w1 with
      trace := rest
      mem := fun a =>
        if hp ≤ a ∧ a < hp + (0 : Int).toNat then w1.peer (w1.pos + (a - hp)) else w1.mem a
      pos := w1.pos + (0 : Int).toNat
      calls := w1.calls ++ [Call.read sock hp L.size 0] }) := by
    unfold sys_read
    rw [hread]
    simp
  have hc : read_count L.size L.size = 0 := by
    rw [read_count_of_le _ _ (le_refl _) (by omega)]; simp
  have hl : sync_read_n_tmo sock (some hp) L.size timeout w = some (0, { w1 with
      trace := rest
      mem := fun a =>
        if hp ≤ a ∧ a < hp + (0 : Int).toNat then w1.peer (w1.pos + (a - hp)) else w1.mem a
      pos := w1.pos + (0 : Int).toNat
      calls := w1.calls ++ [Call.read sock hp L.size 0] }) := by
    rw [sync_read_n_tmo_some _ _ _ _ _ (by omega), sync_read_loop, if_pos (by omega), hwait]
    simp only [gt_iff_lt, hready, if_true, hs]
    simp [toInt32, hc]
  rw [read_of_header L sock hp buflen timeout w _ 0 hsock hbuf hl]
  simp [toInt32, ghead_read_fail, worldAfter]

/-- Witness of C6: one ready wait, then a `read` returning 0. -/
theorem C6_peer_close_before_header_witness :
    (read wire12 3 (some 0) 100 50
        (world0 (streamOf hdr5 104) [Ev.poll 1 0, Ev.read 0 0, Ev.poll 1 0])).map
        (fun r => (r.1, r.2.trace, r.2.calls, r.2.pos))
      = some (RET_PEARCLOSE, [Ev.poll 1 0],
          [Call.poll [3] 1 50 1] ++ [Call.read 3 0 12 0], 0) :=
  (C6_peer_close_before_header wire12 3 0 100 50
    (world0 (streamOf hdr5 104) [Ev.poll 1 0, Ev.read 0 0, Ev.poll 1 0])
    { world0 (streamOf hdr5 104) [Ev.read 0 0, Ev.poll 1 0] with
      nclock := 1, calls := [Call.poll [3] 1 50 1] }
    1 0 [Ev.poll 1 0] (by decide) (by decide) rfl (by decide) rfl).1

/-- The body phase leaves the header in place: the fields `magic_num` and
`body_len` read the same before and after it. -/
theorem header_kept (L : Layout) (hp n : Nat) (w1 w2 : World)
    (hw : Within (hp + L.size) (hp + L.size + n) w1 w2) :
    load32 w2.mem (hp + L.off_magic_num) = load32 w1.mem (hp + L.off_magic_num)
      ∧ load32 w2.mem (hp + L.off_body_len) = load32 w1.mem (hp + L.off_body_len) := by
  have h2 := L.magic_num_in
  have h3 := L.body_len_in
  exact ⟨load32_congr _ _ _ (fun x _ hx => hw.2.1 x (Or.inl (by omega))),
    load32_congr _ _ _ (fun x _ hx => hw.2.1 x (Or.inl (by omega)))⟩

/-- Claim C7, as amended: after a full header with the right magic and a
sufficient capacity, when the body phase stops after `k` body bytes with
`1 <= k < body_len` (the accumulating read returns the short count `k`, which
it does only when a `read` returned 0 or the readiness wait timed out),
`ghead::read` returns `RET_READ`. -/
theorem C7_short_body_is_read_failure (L : Layout) (sock : Int) (hp buflen : Nat)
    (timeout : Int) (w w1 w2 : World) (k : Int) (hsock : 0 ≤ sock) (hbuf : L.size ≤ buflen)
    (hhead : sync_read_n_tmo sock (some hp) L.size timeout w = some ((L.size : Int), w1))
    (hmagic : load32 w1.mem (hp + L.off_magic_num) = GHEAD_MAGICNUM)
    (hcap : L.size + load32 w1.mem (hp + L.off_body_len) ≤ buflen)
    (hbody : sync_read_n_tmo sock (some (hp + L.size))
        (load32 w1.mem (hp + L.off_body_len)) timeout w1 = some (k, w2))
    (hk1 : 1 ≤ k) (hk2 : k < load32 w1.mem (hp + L.off_body_len)) :
    read L sock (some hp) buflen timeout w = some (RET_READ, w2) := by
  have h3 := load32_lt w1.mem (hp + L.off_body_len)
  have hkeep := (header_kept L hp _ w1 w2
    (sync_read_n_tmo_within _ _ _ _ _ _ _ h3 hbody)).2
  rw [read_after_header L sock hp buflen timeout w w1 hsock hbuf hhead,
    if_neg (by simp [hmagic]), if_neg (by omega), if_pos (by omega)]
  simp only [hbody, hkeep]
  unfold ghead_read_fail toInt32
  split_ifs <;> first | rfl | omega

/-- Witness of C7: the header announces 5 body bytes, the peer sends 3 of them
and the next readiness wait times out. -/
theorem C7_short_body_is_read_failure_witness :
    code (read wire12 3 (some 0) 100 50
        (world0 (streamOf hdr5 104)
          [Ev.poll 1 0, Ev.read 12 0, Ev.poll 1 0, Ev.read 3 0, Ev.poll 0 0]))
      = some RET_READ :=
  congrArg code
    (C7_short_body_is_read_failure wire12 3 0 100 50
      (world0 (streamOf hdr5 104)
        [Ev.poll 1 0, Ev.read 12 0, Ev.poll 1 0, Ev.read 3 0, Ev.poll 0 0])
      (worldAfter (sync_read_n_tmo 3 (some 0) 12 50
        (world0 (streamOf hdr5 104)
          [Ev.poll 1 0, Ev.read 12 0, Ev.poll 1 0, Ev.read 3 0, Ev.poll 0 0]))
        (world0 (streamOf hdr5 104) []))
      (worldAfter (read wire12 3 (some 0) 100 50
        (world0 (streamOf hdr5 104)
          [Ev.poll 1 0, Ev.read 12 0, Ev.poll 1 0, Ev.read 3 0, Ev.poll 0 0]))
        (world0 (streamOf hdr5 104) []))
      3 (by decide) (by decide) rfl (by decide) (by decide) rfl (by decide) (by decide))

/-- Claim C8: whenever `ghead::read` returns `RET_SUCCESS`, over any trace of
poll/read outcomes, the buffer starts with a header whose `magic_num` is
`GHEAD_MAGICNUM`, `sizeof(ghead) + body_len <= buflen`, exactly
`sizeof(ghead) + body_len` bytes were taken from the peer and they stand in
arrival order at the start of the buffer (header first, body right after
it), and no byte outside these was changed. -/
theorem C8_success_means_full_frame (L : Layout) (sock : Int) (hp buflen : Nat)
    (timeout : Int) (w wf : World)
    (h : read L sock (some hp) buflen timeout w = some (RET_SUCCESS, wf)) :
    load32 wf.mem (hp + L.off_magic_num) = GHEAD_MAGICNUM
      ∧ L.size + load32 wf.mem (hp + L.off_body_len) ≤ buflen
      ∧ wf.pos = w.pos + (L.size + load32 wf.mem (hp + L.off_body_len))
      ∧ (∀ i, i < L.size + load32 wf.mem (hp + L.off_body_len) →
          wf.mem (hp + i) = w.peer (w.pos + i))
      ∧ (∀ a, a < hp ∨ hp + (L.size + load32 wf.mem (hp + L.off_body_len)) ≤ a →
          wf.mem a = w.mem a) := by
  have h1 := L.size_lt
  have h2 := L.magic_num_in
  have hv : 0 ≤ sock ∧ L.size ≤ buflen := by
    by_contra hc
    have : sock < 0 ∨ some hp = none ∨ buflen < L.size := by
      simp only [reduceCtorEq, false_or]; omega
    unfold read at h
    rw [if_pos this] at h
    simp at h
  obtain ⟨r, w1, hh, hcase⟩ := read_inv L sock hp buflen timeout w wf _ hv.1 hv.2 h
  have hH := sync_read_n_tmo_count sock hp L.size timeout w w1 r (by omega) h1 hh
  have hW := sync_read_n_tmo_within sock hp L.size timeout w w1 r (by omega) hh
  rcases hcase with ⟨hr, e, _⟩ | ⟨_, _, e, _⟩ | ⟨_, _, e, _⟩ | ⟨_, _, _, e, _⟩ |
      ⟨er, hm, hcap, hb0, _, e⟩ | ⟨er, hm, hcap, hbpos, r2, hb, e⟩
  · unfold ghead_read_fail at e
    split_ifs at e
  · cases e
  · cases e
  · cases e
  · subst e
    rcases hH with e1 | ⟨n, hn, hrn, hpos, hmem⟩
    · omega
    · have : n = L.size := by omega
      subst this
      rw [hb0]
      exact ⟨hm, by omega, by simpa using hpos, fun i hi => hmem i (by omega),
        fun a ha => hW.2.1 a (by omega)⟩
  · have h3 := load32_lt w1.mem (hp + L.off_body_len)
    have hW2 := sync_read_n_tmo_within _ _ _ _ _ _ _ h3 hb
    obtain ⟨k1, k2⟩ := header_kept L hp _ w1 wf hW2
    rw [k2] at e
    have hr2 : 0 < toInt32 r2 ∧ toInt32 r2 = toInt32 (load32 w1.mem (hp + L.off_body_len)) := by
      split_ifs at e with c1 c2
      · unfold ghead_read_fail at e
        split_ifs at e
      · exact ⟨lt_of_not_ge c1, not_not.mp c2⟩
    obtain ⟨hsmall, hfull⟩ := int_count_full _ r2 h3 hr2.1 hr2.2
    clear hr2 e
    have hB := sync_read_n_tmo_count _ _ _ _ _ _ _ hbpos hsmall hb
    rcases hH with e1 | ⟨n, hn, hrn, hpos, hmem⟩
    · omega
    · have en : n = L.size := by omega
      subst en
      rcases hB with e2 | ⟨n2, hn2, hrn2, hpos2, hmem2⟩
      · have := hfull (by omega) (by omega)
        omega
      · have en2 : n2 = load32 w1.mem (hp + L.off_body_len) := by
          have := hfull (by omega) (by omega)
          omega
        rw [k1, k2]
        refine ⟨hm, hcap, by rw [hpos2, hpos, en2]; omega, fun i hi => ?_, fun a ha => ?_⟩
        · by_cases hi1 : i < L.size
          · rw [hW2.2.1 (hp + i) (Or.inl (by omega))]
            exact hmem i hi1
          · have := hmem2 (i - L.size) (by omega)
            rw [show hp + L.size + (i - L.size) = hp + i by omega, hW.1, hpos] at this
            rw [this]
            congr 1; omega
        · rw [hW2.2.1 a (by omega)]
          exact hW.2.1 a (by omega)

/-- Witness of C8: a complete frame of 12 + 5 bytes; the run returns
`RET_SUCCESS` and has taken exactly 17 bytes from the peer. -/
theorem C8_success_means_full_frame_witness :
    (worldAfter (read wire12 3 (some 0) 100 50
        (world0 (streamOf hdr5 104)
          [Ev.poll 1 0, Ev.read 12 0, Ev.poll 1 0, Ev.read 2 0, Ev.poll 2 0, Ev.read 3 0]))
        (world0 (streamOf hdr5 104) [])).pos = 0 + (12 + 5) :=
  (C8_success_means_full_frame wire12 3 0 100 50
    (world0 (streamOf hdr5 104)
      [Ev.poll 1 0, Ev.read 12 0, Ev.poll 1 0, Ev.read 2 0, Ev.poll 2 0, Ev.read 3 0])
    (worldAfter (read wire12 3 (some 0) 100 50
        (world0 (streamOf hdr5 104)
          [Ev.poll 1 0, Ev.read 12 0, Ev.poll 1 0, Ev.read 2 0, Ev.poll 2 0, Ev.read 3 0]))
        (world0 (streamOf hdr5 104) []))
    rfl).2.2.1

theorem newCalls_of_append (w wf : World) (new : List Call) (h : wf.calls = w.calls ++ new) :
    newCalls w wf = new := by
  unfold newCalls
  rw [h, List.drop_left]

theorem within_newCalls {lo hi : Nat} {w wf : World} (h : Within lo hi w wf) :
    wf.calls = w.calls ++ newCalls w wf ∧ ReadsWithin lo hi (newCalls w wf) := by
  obtain ⟨_, _, new, c, r⟩ := h
  rw [newCalls_of_append w wf new c]
  exact ⟨c, r⟩

/-- Claim C9: in every run of `ghead::read` with valid parameters, every
`read` call asks for bytes inside the buffer `[head, head + buflen)` and gets
back at most the count it asked for, so every byte written lies at a buffer
offset below `buflen` and memory outside the buffer is unchanged; and a read
beyond the header (at an address from `head + sizeof(ghead)` on) is issued
only after the header phase has returned the full header, with the magic
matching and `sizeof(ghead) + body_len <= buflen`, and stays inside the
`body_len` bytes after the header. -/
theorem C9_reads_stay_in_buffer (L : Layout) (sock : Int) (hp buflen : Nat)
    (timeout : Int) (w wf : World) (rc : RETURN_CODE) (hsock : 0 ≤ sock)
    (hbuf : L.size ≤ buflen)
    (h : read L sock (some hp) buflen timeout w = some (rc, wf)) :
    wf.calls = w.calls ++ newCalls w wf
      ∧ ReadsWithin hp (hp + buflen) (newCalls w wf)
      ∧ (∀ a, a < hp ∨ hp + buflen ≤ a → wf.mem a = w.mem a)
      ∧ (∀ fd q cnt ret, Call.read fd q cnt ret ∈ newCalls w wf → hp + L.size ≤ q →
          ∃ w1, sync_read_n_tmo sock (some hp) L.size timeout w = some ((L.size : Int), w1)
            ∧ load32 w1.mem (hp + L.off_magic_num) = GHEAD_MAGICNUM
            ∧ L.size + load32 w1.mem (hp + L.off_body_len) ≤ buflen
            ∧ q + cnt ≤ hp + L.size + load32 w1.mem (hp + L.off_body_len)
            ∧ Call.read fd q cnt ret ∈ newCalls w1 wf) := by
  have h1 := L.size_lt
  obtain ⟨r, w1, hh, hcase⟩ := read_inv L sock hp buflen timeout w wf rc hsock hbuf h
  have hW := sync_read_n_tmo_within sock hp L.size timeout w w1 r (by omega) hh
  have headOnly : wf = w1 →
      wf.calls = w.calls ++ newCalls w wf
      ∧ ReadsWithin hp (hp + buflen) (newCalls w wf)
      ∧ (∀ a, a < hp ∨ hp + buflen ≤ a → wf.mem a = w.mem a)
      ∧ (∀ fd q cnt ret, Call.read fd q cnt ret ∈ newCalls w wf → hp + L.size ≤ q →
          ∃ w1, sync_read_n_tmo sock (some hp) L.size timeout w = some ((L.size : Int), w1)
            ∧ load32 w1.mem (hp + L.off_magic_num) = GHEAD_MAGICNUM
            ∧ L.size + load32 w1.mem (hp + L.off_body_len) ≤ buflen
            ∧ q + cnt ≤ hp + L.size + load32 w1.mem (hp + L.off_body_len)
            ∧ Call.read fd q cnt ret ∈ newCalls w1 wf) := by
    intro e
    subst e
    have hb := within_mono hW (le_refl hp) (show hp + L.size ≤ hp + buflen by omega)
    refine ⟨(within_newCalls hb).1, (within_newCalls hb).2, hb.2.1, ?_⟩
    intro fd q cnt ret hm hq
    obtain ⟨_, b, c, _⟩ := (within_newCalls hW).2 fd q cnt ret hm
    omega
  rcases hcase with ⟨_, _, e⟩ | ⟨_, _, _, e⟩ | ⟨_, _, _, e⟩ | ⟨_, _, _, _, e⟩ |
      ⟨_, _, _, _, _, e⟩ | ⟨er, hm, hcap, hbpos, r2, hb, _⟩
  · exact headOnly e
  · exact headOnly e
  · exact headOnly e
  · exact headOnly e
  · exact headOnly e
  · have h3 := load32_lt w1.mem (hp + L.off_body_len)
    have hW2 := sync_read_n_tmo_within _ _ _ _ _ _ _ h3 hb
    have hall : Within hp (hp + buflen) w wf :=
      within_trans (within_mono hW (le_refl hp) (show hp + L.size ≤ hp + buflen by omega))
        (within_mono hW2 (show hp ≤ hp + L.size by omega) (by omega))
    refine ⟨(within_newCalls hall).1, (within_newCalls hall).2, hall.2.1, ?_⟩
    intro fd q cnt ret hmem hq
    have hsplit : newCalls w wf = newCalls w w1 ++ newCalls w1 wf := by
      apply newCalls_of_append
      rw [(within_newCalls hW2).1, (within_newCalls hW).1, List.append_assoc]
    rw [hsplit] at hmem
    rcases List.mem_append.mp hmem with hin | hin
    · obtain ⟨_, b, c, _⟩ := (within_newCalls hW).2 fd q cnt ret hin
      omega
    · obtain ⟨_, b, _, _⟩ := (within_newCalls hW2).2 fd q cnt ret hin
      rw [er] at hh
      exact ⟨w1, hh, hm, hcap, b, hin⟩

/-- Witness of C9: a complete frame of 12 + 5 bytes read into a buffer of 100
bytes at address 1000; the byte right after the buffer keeps its value. -/
theorem C9_reads_stay_in_buffer_witness :
    (worldAfter (read wire12 3 (some 1000) 100 50
        (world0 (streamOf hdr5 104)
          [Ev.poll 1 0, Ev.read 12 0, Ev.poll 1 0, Ev.read 5 0]))
        (world0 (streamOf hdr5 104) [])).mem 1100 = 0 :=
  (C9_reads_stay_in_buffer wire12 3 1000 100 50
    (world0 (streamOf hdr5 104) [Ev.poll 1 0, Ev.read 12 0, Ev.poll 1 0, Ev.read 5 0])
    (worldAfter (read wire12 3 (some 1000) 100 50
        (world0 (streamOf hdr5 104)
          [Ev.poll 1 0, Ev.read 12 0, Ev.poll 1 0, Ev.read 5 0]))
        (world0 (streamOf hdr5 104) []))
    RET_SUCCESS (by decide) (by decide) rfl).2.2.1 1100 (Or.inr (by decide))

/-- The outcome of the loop of `ghead::poll_wrap`: the outcomes consumed are
interruptions `rets`, each followed by a retry because the remaining budget
was positive, and a last outcome `ret`/`err` that ends the wait. -/
theorem poll_wrap_loop_outcome (fds : List Int) (nfds : Nat) (start : Int) :
    ∀ (fuel : Nat) (rest : Int) (w w1 : World) (r : Int),
      poll_wrap_loop fds nfds start fuel rest w = some (r, w1) →
      ∃ rets ret err, w.trace = eintrs rets ++ Ev.poll ret err :: w1.trace
        ∧ (∀ x ∈ rets, x < 0)
        ∧ (∀ j, j < rets.length → 0 < rest_after w.clock start (j + 1) w.nclock rest)
        ∧ w1.calls = w.calls ++ retryCalls fds nfds w.clock start (rets ++ [ret]) w.nclock rest
        ∧ w1.clock = w.clock
        ∧ ((0 < ret ∧ r = ret)
          ∨ (ret = 0 ∧ r = 0 ∧ w1.errno = ETIMEDOUT)
          ∨ (ret < 0 ∧ err = EINTR
              ∧ rest_after w.clock start (rets.length + 1) w.nclock rest ≤ 0
              ∧ r = 0 ∧ w1.errno = ETIMEDOUT)
          ∨ (ret < 0 ∧ err ≠ EINTR ∧ r = ret ∧ w1.errno = err)) := by
  intro fuel
  induction fuel with
  | zero => intro rest w w1 r h; simp [poll_wrap_loop] at h
  | succ fuel ih =>
    intro rest w w1 r h
    rw [poll_wrap_loop] at h
    split at h
    · simp at h
    · rename_i ret_val wp hp
      obtain ⟨_, _, _, hclk, hnc, hcalls, err, htr, herr⟩ := sys_poll_spec _ _ _ _ _ _ hp
      have base : ∀ wq : World, wq.trace = wp.trace → wq.calls = wp.calls →
          wq.clock = wp.clock →
          wq.calls = w.calls ++ retryCalls fds nfds w.clock start ([] ++ [ret_val]) w.nclock rest
          ∧ w.trace = eintrs [] ++ Ev.poll ret_val err :: wq.trace ∧ wq.clock = w.clock := by
        intro wq h1 h2 h3
        exact ⟨by rw [h2, hcalls]; rfl, by rw [h1, htr]; rfl, by rw [h3, hclk]⟩
      split at h
      · rename_i hpos
        simp only [Option.some.injEq, Prod.mk.injEq] at h
        obtain ⟨h1, h2⟩ := h
        subst h2
        obtain ⟨b1, b2, b3⟩ := base wp rfl rfl rfl
        exact ⟨[], ret_val, err, b2, by simp, by simp, b1, b3, Or.inl ⟨hpos, h1.symm⟩⟩
      · rename_i hpos
        split at h
        · rename_i hz
          simp only [Option.some.injEq, Prod.mk.injEq] at h
          obtain ⟨h1, h2⟩ := h
          subst h2
          obtain ⟨b1, b2, b3⟩ := base { wp with errno := ETIMEDOUT } rfl rfl rfl
          exact ⟨[], ret_val, err, b2, by simp, by simp, b1, b3,
            Or.inr (Or.inl ⟨hz, by rw [← h1, hz], rfl⟩)⟩
        · rename_i hz
          have hneg : ret_val < 0 := by omega
          rw [if_pos hneg] at herr
          split at h
          · rename_i hin
            have herr2 : err = EINTR := by rw [← herr]; exact hin.2
            dsimp only at h
            split at h
            · rename_i hrest
              obtain ⟨rets, ret, err2, i1, i2, i3, i4, i5, i6⟩ := ih _ _ _ _ h
              simp only [now] at i1 i3 i4 i5 i6
              rw [hclk, hnc] at i3 i4 i6
              simp only [now] at hrest
              rw [hclk, hnc] at hrest
              rw [hclk] at i5
              refine ⟨ret_val :: rets, ret, err2, ?_, ?_, ?_, ?_, i5, ?_⟩
              · rw [htr, i1, herr2]; rfl
              · intro x hx
                rcases List.mem_cons.mp hx with e | e
                · rw [e]; exact hneg
                · exact i2 x e
              · intro j hj
                cases j with
                | zero => exact hrest
                | succ j => exact i3 j (by simpa using hj)
              · rw [i4, hcalls, List.append_assoc]; rfl
              · simpa [rest_after, elapsed] using i6
            · rename_i hrest
              simp only [Option.some.injEq, Prod.mk.injEq] at h
              obtain ⟨h1, h2⟩ := h
              subst h2
              simp only [now] at hrest
              rw [hclk, hnc] at hrest
              obtain ⟨b1, b2, b3⟩ :=
                base { (now wp).2 with errno := ETIMEDOUT } rfl rfl rfl
              exact ⟨[], ret_val, err, b2, by simp, by simp, b1, b3,
                Or.inr (Or.inr (Or.inl ⟨hneg, herr2, by
                  simp only [rest_after, elapsed, List.length_nil]
                  omega, h1.symm, rfl⟩))⟩
          · rename_i hin
            simp only [Option.some.injEq, Prod.mk.injEq] at h
            obtain ⟨h1, h2⟩ := h
            subst h2
            obtain ⟨b1, b2, b3⟩ := base wp rfl rfl rfl
            have : err ≠ EINTR := by
              intro e; apply hin; exact ⟨hneg, by rw [herr, e]⟩
            exact ⟨[], ret_val, err, b2, by simp, by simp, b1, b3,
              Or.inr (Or.inr (Or.inr ⟨hneg, this, h1.symm, herr⟩))⟩

/-- The outcome of `ghead::poll_wrap` on a non-empty array: as for its loop,
with the budget `timeout_ms` and the time point `start` read first. -/
theorem poll_wrap_outcome (fds : List Int) (nfds : Nat) (timeout_ms : Int) (w w1 : World)
    (r : Int) (hn : nfds ≠ 0) (h : poll_wrap (some fds) nfds timeout_ms w = some (r, w1)) :
    ∃ rets ret err, w.trace = eintrs rets ++ Ev.poll ret err :: w1.trace
      ∧ (∀ x ∈ rets, x < 0)
      ∧ (∀ j, j < rets.length →
          0 < rest_after w.clock (w.clock w.nclock) (j + 1) (w.nclock + 1) timeout_ms)
      ∧ w1.calls = w.calls ++ retryCalls fds nfds w.clock (w.clock w.nclock) (rets ++ [ret])
          (w.nclock + 1) timeout_ms
      ∧ w1.clock = w.clock
      ∧ ((0 < ret ∧ r = ret)
        ∨ (ret = 0 ∧ r = 0 ∧ w1.errno = ETIMEDOUT)
        ∨ (ret < 0 ∧ err = EINTR
            ∧ rest_after w.clock (w.clock w.nclock) (rets.length + 1) (w.nclock + 1) timeout_ms ≤ 0
            ∧ r = 0 ∧ w1.errno = ETIMEDOUT)
        ∨ (ret < 0 ∧ err ≠ EINTR ∧ r = ret ∧ w1.errno = err)) := by
  unfold poll_wrap at h
  simp only [if_neg hn] at h
  exact poll_wrap_loop_outcome fds nfds _ _ _ _ _ _ h

theorem sys_read_cap (fd : Int) (ptr count : Nat) (w w2 : World) (ret : Int)
    (h : sys_read fd ptr count w = some (ret, w2)) : ret ≤ 2147479552 := by
  unfold sys_read at h
  split at h
  · split at h
    · simp at h
    · rename_i r0 _ _ _ hr
      have : ret = r0 := by
        split at h <;> simp only [Option.some.injEq, Prod.mk.injEq] at h <;> exact h.1.symm
      omega
  · simp at h

/-- The cases of one iteration of the loop of `ghead::sync_read_n_tmo` that
ends or continues a run, for any remaining count of type `size_t`. -/
theorem sync_read_loop_step_wide (fd : Int) (nbytes : Nat) (timeout_ms : Int)
    (fuel ptr nleft : Nat) (w wf : World) (r : Int) (hpos : 0 < nleft)
    (hlt : nleft < 18446744073709551616)
    (h : sync_read_loop fd nbytes timeout_ms (fuel + 1) ptr nleft w = some (r, wf)) :
    ∃ presult w1, poll_wrap (some [fd]) 1 timeout_ms w = some (presult, w1) ∧
      ((presult = 0 ∧ r = read_count nbytes nleft ∧ wf = w1)
      ∨ (presult < 0 ∧ r = -1 ∧ wf = w1)
      ∨ (0 < presult ∧ ∃ ret w2, sys_read fd ptr nleft w1 = some (ret, w2) ∧
          ((ret = -1 ∧ w2.errno = EINTR
              ∧ sync_read_loop fd nbytes timeout_ms fuel ptr nleft w2 = some (r, wf))
          ∨ (ret = -1 ∧ w2.errno ≠ EINTR ∧ r = -1 ∧ wf = w2)
          ∨ (ret = 0 ∧ r = read_count nbytes nleft ∧ wf = w2)
          ∨ (0 < ret ∧ ret ≤ 2147479552
              ∧ sync_read_loop fd nbytes timeout_ms fuel (ptr + ret.toNat)
                  (nleft - ret.toNat) w2 = some (r, wf))))) := by
  rw [sync_read_loop, if_pos hpos] at h
  split at h
  · simp at h
  · rename_i presult w1 hw
    refine ⟨presult, w1, hw, ?_⟩
    split at h
    · rename_i hp
      right; right
      refine ⟨hp, ?_⟩
      split at h
      · simp at h
      · rename_i ret w2 hs
        refine ⟨ret, w2, hs, ?_⟩
        obtain ⟨hlo, hhi, -⟩ := sys_read_spec _ _ _ _ _ _ hs
        have hcap := sys_read_cap _ _ _ _ _ _ hs
        dsimp only at h
        split at h
        · rename_i hneg
          have hm : ret = -1 := by unfold toInt32 at hneg; omega
          split at h
          · rename_i he
            exact Or.inl ⟨hm, he, h⟩
          · rename_i he
            simp only [Option.some.injEq, Prod.mk.injEq] at h
            exact Or.inr (Or.inl ⟨hm, he, h.1.symm, h.2.symm⟩)
        · rename_i hneg
          split at h
          · rename_i hz
            simp only [Option.some.injEq, Prod.mk.injEq] at h
            refine Or.inr (Or.inr (Or.inl ⟨?_, h.1.symm, h.2.symm⟩))
            unfold toInt32 at hz; omega
          · rename_i hz
            have hr : 0 < ret := by
              unfold toInt32 at hz hneg; omega
            have e2 : toSizeT ((nleft : Int) - ret) = nleft - ret.toNat := by
              rw [toSizeT_of_range _ (by omega) (by omega)]; omega
            have e1 : toInt32 ret = ret := toInt32_of_range _ (by omega) (by omega)
            rw [e1, e2] at h
            exact Or.inr (Or.inr (Or.inr ⟨hr, hcap, h⟩))
    · rename_i hp
      split at h
      · rename_i hz
        simp only [Option.some.injEq, Prod.mk.injEq] at h
        exact Or.inl ⟨hz, h.1.symm, h.2.symm⟩
      · rename_i hz
        simp only [Option.some.injEq, Prod.mk.injEq] at h
        exact Or.inr (Or.inl ⟨by omega, h.1.symm, h.2.symm⟩)

/-- Safety of the loop of `ghead::sync_read_n_tmo` for any remaining count:
it stores bytes in `[ptr, ptr + nleft)` only. -/
theorem sync_read_loop_within_wide (fd : Int) (nbytes : Nat) (timeout_ms : Int) :
    ∀ (fuel ptr nleft : Nat) (w wf : World) (r : Int), nleft < 18446744073709551616 →
      sync_read_loop fd nbytes timeout_ms fuel ptr nleft w = some (r, wf) →
      Within ptr (ptr + nleft) w wf := by
  intro fuel
  induction fuel with
  | zero =>
    intro ptr nleft w wf r _ h
    simp only [sync_read_loop] at h
    split at h
    · simp at h
    · simp only [Option.some.injEq, Prod.mk.injEq] at h
      rw [← h.2]; exact within_refl _ _ _
  | succ fuel ih =>
    intro ptr nleft w wf r hlt h
    rcases Nat.eq_zero_or_pos nleft with hz | hpos
    · subst hz
      rw [sync_read_loop_done] at h
      simp only [Option.some.injEq, Prod.mk.injEq] at h
      rw [← h.2]; exact within_refl _ _ _
    · obtain ⟨presult, w1, hw, hcase⟩ :=
        sync_read_loop_step_wide fd nbytes timeout_ms fuel ptr nleft w wf r hpos hlt h
      have hw1 : Within ptr (ptr + nleft) w w1 :=
        waitOnly_within (poll_wrap_waitOnly _ _ _ _ _ _ hw) _ _
      rcases hcase with ⟨_, _, e⟩ | ⟨_, _, e⟩ | ⟨_, ret, w2, hs, hrd⟩
      · rw [e]; exact hw1
      · rw [e]; exact hw1
      · have hw2 : Within ptr (ptr + nleft) w w2 :=
          within_trans hw1 (sys_read_within _ _ _ _ _ _ hpos hs)
        obtain ⟨hlo, hhi, -⟩ := sys_read_spec _ _ _ _ _ _ hs
        rcases hrd with ⟨_, _, hrec⟩ | ⟨_, _, _, e⟩ | ⟨_, _, e⟩ | ⟨h0, h1, hrec⟩
        · exact within_trans hw2 (ih _ _ _ _ _ hlt hrec)
        · rw [e]; exact hw2
        · rw [e]; exact hw2
        · have := ih _ _ _ _ _ (by omega) hrec
          exact within_trans hw2 (within_mono this (by omega) (by omega))

theorem readSum_append (a b : List Call) : readSum (a ++ b) = readSum a + readSum b := by
  induction a with
  | nil => simp [readSum]
  | cons c cs ih =>
    cases c with
    | poll _ _ _ _ => simpa [readSum] using ih
    | read _ _ _ ret =>
      show (if 0 < ret then ret else 0) + readSum (cs ++ b)
        = (if 0 < ret then ret else 0) + readSum cs + readSum b
      rw [ih]; omega

theorem readSum_polls (a : List Call) (h : OnlyPolls a) : readSum a = 0 := by
  induction a with
  | nil => rfl
  | cons c cs ih =>
    obtain ⟨_, _, _, _, e⟩ := h c (List.mem_cons_self _ _)
    subst e
    simp only [readSum]
    exact ih (fun x hx => h x (List.mem_cons_of_mem _ hx))

theorem lastIsData_append (a b : List Call) (hb : b ≠ []) :
    lastIsData (a ++ b) ↔ lastIsData b := by
  unfold lastIsData
  rw [List.getLast?_append_of_ne_nil _ hb]

theorem lastIsData_concat_read (a : List Call) (fd : Int) (q cnt : Nat) (ret : Int) :
    lastIsData (a ++ [Call.read fd q cnt ret]) ↔ 0 < ret := by
  unfold lastIsData
  rw [List.getLast?_concat]
  constructor
  · rintro ⟨_, _, _, _, e, h⟩
    simp only [Option.some.injEq, Call.read.injEq] at e
    rw [e.2.2.2]; exact h
  · intro h
    exact ⟨fd, q, cnt, ret, rfl, h⟩

theorem not_lastIsData_polls (a : List Call) (h : OnlyPolls a) : ¬ lastIsData a := by
  rintro ⟨fd, q, cnt, ret, e, _⟩
  obtain ⟨_, _, _, _, hx⟩ := h _ (List.mem_of_getLast?_eq_some e)
  simp at hx

/-- A readiness wait on a non-empty array issues at least one call, and polls
only. -/
theorem poll_wrap_calls (fds : List Int) (nfds : Nat) (timeout_ms : Int) (w w1 : World)
    (r : Int) (hn : nfds ≠ 0) (h : poll_wrap (some fds) nfds timeout_ms w = some (r, w1)) :
    w1.calls = w.calls ++ newCalls w w1 ∧ newCalls w w1 ≠ [] ∧ OnlyPolls (newCalls w w1) := by
  obtain ⟨_, _, _, new, hc, hp⟩ := poll_wrap_waitOnly _ _ _ _ _ _ h
  obtain ⟨rets, ret, err, _, _, _, hcalls, _⟩ := poll_wrap_outcome fds nfds timeout_ms w w1 r hn h
  have e1 := newCalls_of_append w w1 _ hc
  have e2 := newCalls_of_append w w1 _ hcalls
  rw [e1]
  refine ⟨hc, ?_, hp⟩
  intro hnil
  rw [e1, hnil] at e2
  cases rets <;> simp [retryCalls] at e2

theorem newCalls_self (w : World) : newCalls w w = [] :=
  newCalls_of_append w w [] (by simp)

/-- The calls of a run of the loop that is given to a later run: the log of
the whole is the concatenation. -/
theorem newCalls_trans (w w1 w2 : World) (h1 : w1.calls = w.calls ++ newCalls w w1)
    (h2 : w2.calls = w1.calls ++ newCalls w1 w2) :
    newCalls w w2 = newCalls w w1 ++ newCalls w1 w2 := by
  apply newCalls_of_append
  rw [h2, h1, List.append_assoc]

theorem sync_read_loop_calls (fd : Int) (nbytes : Nat) (timeout_ms : Int)
    (fuel ptr nleft : Nat) (w wf : World) (r : Int) (hlt : nleft < 18446744073709551616)
    (h : sync_read_loop fd nbytes timeout_ms fuel ptr nleft w = some (r, wf)) :
    wf.calls = w.calls ++ newCalls w wf :=
  (within_newCalls (sync_read_loop_within_wide fd nbytes timeout_ms _ _ _ _ _ _ hlt h)).1

theorem sys_read_calls (fd : Int) (ptr count : Nat) (w w2 : World) (ret : Int)
    (h : sys_read fd ptr count w = some (ret, w2)) :
    w2.calls = w.calls ++ newCalls w w2 ∧ newCalls w w2 = [Call.read fd ptr count ret] := by
  obtain ⟨_, _, _, _, _, hc, _⟩ := sys_read_spec _ _ _ _ _ _ h
  have := newCalls_of_append w w2 _ hc
  rw [this]
  exact ⟨hc, rfl⟩

/-- A run of the loop with bytes still to read issues at least one call. -/
theorem sync_read_loop_calls_ne_nil (fd : Int) (nbytes : Nat) (timeout_ms : Int)
    (fuel ptr nleft : Nat) (w wf : World) (r : Int) (hpos : 0 < nleft)
    (hlt : nleft < 18446744073709551616)
    (h : sync_read_loop fd nbytes timeout_ms fuel ptr nleft w = some (r, wf)) :
    newCalls w wf ≠ [] := by
  cases fuel with
  | zero => simp [sync_read_loop, hpos] at h
  | succ fuel =>
    obtain ⟨presult, w1, hw, hcase⟩ :=
      sync_read_loop_step_wide fd nbytes timeout_ms fuel ptr nleft w wf r hpos hlt h
    obtain ⟨c1, hne, _⟩ := poll_wrap_calls [fd] 1 timeout_ms w w1 presult (by omega) hw
    rcases hcase with ⟨_, _, e⟩ | ⟨_, _, e⟩ | ⟨_, ret, w2, hs, hrd⟩
    · rw [e]; exact hne
    · rw [e]; exact hne
    · obtain ⟨c2, _⟩ := sys_read_calls _ _ _ _ _ _ hs
      have c12 := newCalls_trans w w1 w2 c1 c2
      have hne2 : newCalls w w2 ≠ [] := by
        rw [c12]; simp [hne]
      obtain ⟨hlo, hhi, -⟩ := sys_read_spec _ _ _ _ _ _ hs
      rcases hrd with ⟨_, _, hrec⟩ | ⟨_, _, _, e⟩ | ⟨_, _, e⟩ | ⟨h0, h1, hrec⟩
      · have c3 := sync_read_loop_calls _ _ _ _ _ _ _ _ _ hlt hrec
        rw [newCalls_trans w w2 wf (by rw [c2, c1, c12, List.append_assoc]) c3]
        simp [hne2]
      · rw [e]; exact hne2
      · rw [e]; exact hne2
      · have c3 := sync_read_loop_calls _ _ _ _ _ _ _ _ _ (by omega) hrec
        rw [newCalls_trans w w2 wf (by rw [c2, c1, c12, List.append_assoc]) c3]
        simp [hne2]

/-- What a run of the loop of `ghead::sync_read_n_tmo` that does not return
`-1` has done, for a request below `2^63` bytes: with `n` the number of bytes
taken from the peer, the result is `nbytes - nleft + n`, `n` is the sum of the
positive `read` results, the bytes stand in arrival order from the cursor on,
and all `nleft` bytes were read exactly when the last call is a `read` that
returned a positive count. -/
theorem sync_read_loop_run (fd : Int) (nbytes : Nat) (timeout_ms : Int)
    (hn : nbytes < 9223372036854775808) :
    ∀ (fuel ptr nleft : Nat) (w wf : World) (r : Int), nleft ≤ nbytes →
      sync_read_loop fd nbytes timeout_ms fuel ptr nleft w = some (r, wf) → r ≠ -1 →
      ∃ n, n ≤ nleft ∧ r = ((nbytes - nleft + n : Nat) : Int)
        ∧ readSum (newCalls w wf) = (n : Int)
        ∧ wf.pos = w.pos + n
        ∧ (∀ i, i < n → wf.mem (ptr + i) = w.peer (w.pos + i))
        ∧ (0 < nleft → (n = nleft ↔ lastIsData (newCalls w wf))) := by
  have stop : ∀ (ptr nleft : Nat) (w wf : World) (r : Int) (new : List Call),
      nleft ≤ nbytes → r = read_count nbytes nleft → wf.pos = w.pos →
      newCalls w wf = new → readSum new = 0 → ¬ lastIsData new →
      ∃ n, n ≤ nleft ∧ r = ((nbytes - nleft + n : Nat) : Int)
        ∧ readSum (newCalls w wf) = (n : Int)
        ∧ wf.pos = w.pos + n
        ∧ (∀ i, i < n → wf.mem (ptr + i) = w.peer (w.pos + i))
        ∧ (0 < nleft → (n = nleft ↔ lastIsData (newCalls w wf))) := by
    intro ptr nleft w wf r new hle hr hp hnew hsum hlast
    refine ⟨0, Nat.zero_le _, ?_, by rw [hnew, hsum]; rfl, by rw [hp]; rfl,
      fun i hi => absurd hi (by omega), fun h0 => ?_⟩
    · rw [hr, read_count_of_le _ _ hle hn]; rfl
    · rw [hnew]
      exact ⟨fun e => absurd e (by omega), fun e => absurd e hlast⟩
  have hnil : ¬ lastIsData [] := by
    rintro ⟨_, _, _, _, e, _⟩
    simp at e
  intro fuel
  induction fuel with
  | zero =>
    intro ptr nleft w wf r hle h _
    simp only [sync_read_loop] at h
    split at h
    · simp at h
    · simp only [Option.some.injEq, Prod.mk.injEq] at h
      obtain ⟨h1, h2⟩ := h
      subst h2
      exact stop ptr nleft w w r [] hle h1.symm rfl (newCalls_self w) rfl hnil
  | succ fuel ih =>
    intro ptr nleft w wf r hle h hr
    rcases Nat.eq_zero_or_pos nleft with hz | hpos
    · subst hz
      rw [sync_read_loop_done] at h
      simp only [Option.some.injEq, Prod.mk.injEq] at h
      obtain ⟨h1, h2⟩ := h
      subst h2
      exact stop ptr 0 w w r [] hle h1.symm rfl (newCalls_self w) rfl hnil
    · obtain ⟨presult, w1, hw, hcase⟩ :=
        sync_read_loop_step_wide fd nbytes timeout_ms fuel ptr nleft w wf r hpos (by omega) h
      obtain ⟨wm, wp, wpos, -⟩ := poll_wrap_waitOnly _ _ _ _ _ _ hw
      obtain ⟨c1, hne, hpolls⟩ := poll_wrap_calls [fd] 1 timeout_ms w w1 presult (by omega) hw
      rcases hcase with ⟨_, hr0, e⟩ | ⟨_, hr0, _⟩ | ⟨_, ret, w2, hs, hrd⟩
      · subst e
        exact stop ptr nleft w wf r _ hle hr0 wpos rfl (readSum_polls _ hpolls)
          (not_lastIsData_polls _ hpolls)
      · exact absurd hr0 hr
      · obtain ⟨hlo, hhi, hpeer, _, _, _, _, hneg, hnn⟩ := sys_read_spec _ _ _ _ _ _ hs
        obtain ⟨c2, hone⟩ := sys_read_calls _ _ _ _ _ _ hs
        have c12 := newCalls_trans w w1 w2 c1 c2
        have cw2 : w2.calls = w.calls ++ newCalls w w2 := by
          rw [c2, c1, c12, List.append_assoc]
        rw [hone] at c12
        rcases hrd with ⟨hm, _, hrec⟩ | ⟨_, _, hr0, _⟩ | ⟨h0, hr0, e⟩ | ⟨h0, h1, hrec⟩
        · obtain ⟨hm2, hp2⟩ := hneg (by omega)
          have c3 := sync_read_loop_calls _ _ _ _ _ _ _ _ _ (by omega) hrec
          have hne3 := sync_read_loop_calls_ne_nil _ _ _ _ _ _ _ _ _ hpos (by omega) hrec
          have call := newCalls_trans w w2 wf cw2 c3
          obtain ⟨n, a, b, c, d, e, f⟩ := ih _ _ _ _ _ hle hrec hr
          refine ⟨n, a, b, ?_, by rw [d, hp2, wpos], fun i hi => ?_, fun _ => ?_⟩
          · rw [call, c12, readSum_append, readSum_append, readSum_polls _ hpolls, c, hm]
            simp [readSum]
          · rw [e i hi, hpeer, wp, hp2, wpos]
          · rw [call, lastIsData_append _ _ hne3]
            exact f hpos
        · exact absurd hr0 hr
        · subst e
          obtain ⟨_, hp2, _⟩ := hnn (by omega)
          refine stop ptr nleft w wf r _ hle hr0 (by rw [hp2, h0, wpos]; rfl) c12 ?_ ?_
          · rw [readSum_append, readSum_polls _ hpolls, h0]; simp [readSum]
          · rw [lastIsData_concat_read, h0]; omega
        · obtain ⟨_, hp2, hm2⟩ := hnn (by omega)
          have c3 := sync_read_loop_calls _ _ _ _ _ _ _ _ _ (by omega) hrec
          have call := newCalls_trans w w2 wf cw2 c3
          have hfr := sync_read_loop_within_wide fd nbytes timeout_ms _ _ _ _ _ _ (by omega) hrec
          obtain ⟨n, a, b, c, d, e, f⟩ := ih _ _ _ _ _ (by omega) hrec hr
          refine ⟨ret.toNat + n, by omega, ?_, ?_, by rw [d, hp2, wpos]; omega,
            fun i hi => ?_, fun _ => ?_⟩
          · rw [b]; congr 1; omega
          · rw [call, c12, readSum_append, readSum_append, readSum_polls _ hpolls, c]
            simp only [readSum, if_pos h0]
            omega
          · by_cases hi2 : i < ret.toNat
            · rw [hfr.2.1 (ptr + i) (Or.inl (by omega)), hm2 (ptr + i),
                if_pos ⟨by omega, by omega⟩, wp, wpos]
              congr 2; omega
            · have := e (i - ret.toNat) (by omega)
              rw [show ptr + ret.toNat + (i - ret.toNat) = ptr + i by omega] at this
              rw [this, hpeer, wp, hp2, wpos]
              congr 1; omega
          · rcases Nat.eq_zero_or_pos (nleft - ret.toNat) with hz | hgt
            · rw [hz, sync_read_loop_done] at hrec
              simp only [Option.some.injEq, Prod.mk.injEq] at hrec
              have hw2 : wf = w2 := hrec.2.symm
              subst hw2
              rw [c12, lastIsData_concat_read]
              exact ⟨fun _ => h0, fun _ => by omega⟩
            · have hne3 := sync_read_loop_calls_ne_nil _ _ _ _ _ _ _ _ _ hgt (by omega) hrec
              rw [call, lastIsData_append _ _ hne3, ← f hgt]
              omega

/-- Claim C13: for every call of `ghead::sync_read_n_tmo` with a non-null
`ptr` and `0 < nbytes` (a destination object, so below `2^63` bytes) and every
trace (each `read` returning at most the count it was asked for, which the
model of `read(2)` guarantees): a result other than `-1` is the sum of the
positive `read` results, lies between 0 and `nbytes`, that many bytes were
taken from the peer and stand in arrival order from offset 0 of the
destination, every `read` stayed inside the destination, and the result
equals `nbytes` exactly when the last call is a `read` that returned a
positive count, that is when the loop ended because no bytes remained and
not by a timeout (last call a `poll`) or a zero-byte `read`. -/
theorem C13_count_is_bytes_read (fd : Int) (p nbytes : Nat) (timeout_ms : Int)
    (w wf : World) (r : Int) (hpos : 0 < nbytes) (hobj : nbytes < 9223372036854775808)
    (h : sync_read_n_tmo fd (some p) nbytes timeout_ms w = some (r, wf)) (hr : r ≠ -1) :
    r = readSum (newCalls w wf) ∧ 0 ≤ r ∧ r ≤ nbytes
      ∧ wf.pos = w.pos + r.toNat
      ∧ (∀ i : Nat, (i : Int) < r → wf.mem (p + i) = w.peer (w.pos + i))
      ∧ ReadsWithin p (p + nbytes) (newCalls w wf)
      ∧ (r = nbytes ↔ lastIsData (newCalls w wf)) := by
  rw [sync_read_n_tmo_some _ _ _ _ _ hpos] at h
  obtain ⟨n, a, b, c, d, e, f⟩ :=
    sync_read_loop_run fd nbytes timeout_ms hobj _ _ _ _ _ _ (le_refl _) h hr
  have hW := sync_read_loop_within_wide fd nbytes timeout_ms _ _ _ _ _ _ (by omega) h
  have hrn : r = (n : Int) := by rw [b]; congr 1; omega
  refine ⟨by rw [c, hrn], by omega, by omega, by rw [d, hrn]; rfl, fun i hi => e i (by omega),
    (within_newCalls hW).2, ?_⟩
  rw [← f hpos, hrn]
  omega

/-- Witness of C13: a request of 8 bytes; 3 bytes arrive, a `read` is
interrupted, 2 more bytes arrive and the next wait times out: the result 5 is
the sum of the positive `read` results. -/
theorem C13_count_is_bytes_read_witness :
    (5 : Int) = readSum (newCalls
      (world0 (streamOf hdr5 104)
        [Ev.poll 1 0, Ev.read 3 0, Ev.poll 1 0, Ev.read (-1) EINTR, Ev.poll 1 0, Ev.read 2 0,
         Ev.poll 0 0])
      (worldAfter (sync_read_n_tmo 3 (some 0) 8 50
        (world0 (streamOf hdr5 104)
          [Ev.poll 1 0, Ev.read 3 0, Ev.poll 1 0, Ev.read (-1) EINTR, Ev.poll 1 0, Ev.read 2 0,
           Ev.poll 0 0]))
        (world0 (streamOf hdr5 104) []))) :=
  (C13_count_is_bytes_read 3 0 8 50
    (world0 (streamOf hdr5 104)
      [Ev.poll 1 0, Ev.read 3 0, Ev.poll 1 0, Ev.read (-1) EINTR, Ev.poll 1 0, Ev.read 2 0,
       Ev.poll 0 0])
    (worldAfter (sync_read_n_tmo 3 (some 0) 8 50
      (world0 (streamOf hdr5 104)
        [Ev.poll 1 0, Ev.read 3 0, Ev.poll 1 0, Ev.read (-1) EINTR, Ev.poll 1 0, Ev.read 2 0,
         Ev.poll 0 0]))
      (world0 (streamOf hdr5 104) []))
    5 (by decide) (by decide) (by rfl) (by decide)).1

/-! ## Parameter checks and the order of the calls -/

/-- Claim C14, at `fd = -1`: with a non-null destination of 4 bytes and the
descriptor `-1`, `ghead::sync_read_n_tmo` issues a `poll` on the descriptor
and, when that poll times out, returns 0: no parameter error is signalled. -/
theorem C14_negative_fd_is_polled :
    (sync_read_n_tmo (-1) (some 0) 4 50 (world0 (fun _ => 0) [Ev.poll 0 0])).map
        (fun x => (x.1, x.2.calls))
      = some (0, [Call.poll [-1] 1 50 0]) := by
  decide

/-- The first call of a readiness wait on a non-empty array is a `poll` with
the timeout given to `ghead::poll_wrap`, the calls after it are polls. -/
theorem poll_wrap_first_call (fds : List Int) (nfds : Nat) (timeout_ms : Int) (w w1 : World)
    (r : Int) (hn : nfds ≠ 0) (h : poll_wrap (some fds) nfds timeout_ms w = some (r, w1)) :
    ∃ ret more, newCalls w w1 = Call.poll fds nfds (toInt32 timeout_ms) ret :: more
      ∧ OnlyPolls more := by
  obtain ⟨_, _, hp⟩ := poll_wrap_calls fds nfds timeout_ms w w1 r hn h
  obtain ⟨rets, ret, err, _, _, _, hcalls, _⟩ := poll_wrap_outcome fds nfds timeout_ms w w1 r hn h
  have e2 := newCalls_of_append w w1 _ hcalls
  rw [e2] at hp ⊢
  cases rets with
  | nil => exact ⟨ret, [], rfl, by intro c hc; simp at hc⟩
  | cons x xs =>
    refine ⟨x, _, rfl, ?_⟩
    intro c hc
    exact hp c (List.mem_cons_of_mem _ hc)

/-- The calls of a run of the loop with bytes still to read: the polls of a
readiness wait that starts with the timeout given to the function and then,
if anything, a `read` on the remaining slice. -/
theorem sync_read_loop_first_calls (fd : Int) (nbytes : Nat) (timeout_ms : Int)
    (fuel ptr nleft : Nat) (w wf : World) (r : Int) (hpos : 0 < nleft)
    (hlt : nleft < 18446744073709551616)
    (h : sync_read_loop fd nbytes timeout_ms fuel ptr nleft w = some (r, wf)) :
    ∃ ret more tl, newCalls w wf = (Call.poll [fd] 1 (toInt32 timeout_ms) ret :: more) ++ tl
      ∧ OnlyPolls more
      ∧ (tl = [] ∨ ∃ ret2 tl2, tl = Call.read fd ptr nleft ret2 :: tl2) := by
  cases fuel with
  | zero => simp [sync_read_loop, hpos] at h
  | succ fuel =>
    obtain ⟨presult, w1, hw, hcase⟩ :=
      sync_read_loop_step_wide fd nbytes timeout_ms fuel ptr nleft w wf r hpos hlt h
    obtain ⟨c1, _, _⟩ := poll_wrap_calls [fd] 1 timeout_ms w w1 presult (by omega) hw
    obtain ⟨ret, more, hfirst, hmore⟩ :=
      poll_wrap_first_call [fd] 1 timeout_ms w w1 presult (by omega) hw
    rcases hcase with ⟨_, _, e⟩ | ⟨_, _, e⟩ | ⟨_, ret2, w2, hs, hrd⟩
    · subst e; exact ⟨ret, more, [], by rw [hfirst]; simp, hmore, Or.inl rfl⟩
    · subst e; exact ⟨ret, more, [], by rw [hfirst]; simp, hmore, Or.inl rfl⟩
    · obtain ⟨c2, hone⟩ := sys_read_calls _ _ _ _ _ _ hs
      have c12 := newCalls_trans w w1 w2 c1 c2
      have cw2 : w2.calls = w.calls ++ newCalls w w2 := by
        rw [c2, c1, c12, List.append_assoc]
      rw [hone, hfirst] at c12
      obtain ⟨hlo, hhi, -⟩ := sys_read_spec _ _ _ _ _ _ hs
      have fin : ∀ tl3, newCalls w wf = newCalls w w2 ++ tl3 →
          ∃ ret more tl, newCalls w wf
              = (Call.poll [fd] 1 (toInt32 timeout_ms) ret :: more) ++ tl
            ∧ OnlyPolls more
            ∧ (tl = [] ∨ ∃ ret2 tl2, tl = Call.read fd ptr nleft ret2 :: tl2) := by
        intro tl3 e
        refine ⟨ret, more, Call.read fd ptr nleft ret2 :: tl3, ?_, hmore, Or.inr ⟨_, _, rfl⟩⟩
        rw [e, c12]; simp
      rcases hrd with ⟨_, _, hrec⟩ | ⟨_, _, _, e⟩ | ⟨_, _, e⟩ | ⟨h0, h1, hrec⟩
      · exact fin _ (newCalls_trans w w2 wf cw2
          (sync_read_loop_calls _ _ _ _ _ _ _ _ _ hlt hrec))
      · subst e; exact fin [] (by simp)
      · subst e; exact fin [] (by simp)
      · exact fin _ (newCalls_trans w w2 wf cw2
          (sync_read_loop_calls _ _ _ _ _ _ _ _ _ (by omega) hrec))

/-- In a log that starts with polls, the first call that is not a poll is
determined. -/
theorem first_read_unique (c x : Call) (hc : ∀ a n t ret, c ≠ Call.poll a n t ret)
    (hx : ∀ a n t ret, x ≠ Call.poll a n t ret) :
    ∀ (A polls tl rest : List Call), A ++ x :: tl = polls ++ c :: rest →
      OnlyPolls A → OnlyPolls polls → x = c := by
  intro A
  induction A with
  | nil =>
    intro polls tl rest h _ hP
    cases polls with
    | nil => simp only [List.nil_append, List.cons.injEq] at h; exact h.1
    | cons p ps =>
      simp only [List.nil_append, List.cons_append, List.cons.injEq] at h
      obtain ⟨_, _, _, _, e⟩ := hP p (List.mem_cons_self _ _)
      exact absurd (h.1.trans e) (hx _ _ _ _)
  | cons a A ih =>
    intro polls tl rest h hA hP
    cases polls with
    | nil =>
      simp only [List.nil_append, List.cons_append, List.cons.injEq] at h
      obtain ⟨_, _, _, _, e⟩ := hA a (List.mem_cons_self _ _)
      exact absurd (h.1.symm.trans e) (hc _ _ _ _)
    | cons p ps =>
      simp only [List.cons_append, List.cons.injEq] at h
      exact ih ps tl rest h.2 (fun y hy => hA y (List.mem_cons_of_mem _ hy))
        (fun y hy => hP y (List.mem_cons_of_mem _ hy))

/-- Claim C15, on a concrete run: the first `read` is interrupted by `EINTR`;
the next call issued is a `poll` (a new readiness wait), not a `read`, and
when that wait times out the function returns without reading again. -/
theorem C15_poll_follows_interrupted_read :
    (sync_read_n_tmo 3 (some 0) 4 50
        (world0 (fun _ => 0) [Ev.poll 1 0, Ev.read (-1) EINTR, Ev.poll 0 0])).map
        (fun x => (x.1, x.2.calls))
      = some (0, [Call.poll [3] 1 50 1, Call.read 3 0 4 (-1), Call.poll [3] 1 50 0]) := by
  decide

/-- Claim C15, as amended: when a `read` of the loop of
`ghead::sync_read_n_tmo` returns `-1` with `errno == EINTR`, the loop goes on
from its head with the cursor and the remaining count unchanged (so the
accumulated count is unchanged): the next call issued is the `poll` of a new
readiness wait, with the timeout given to the function, and the next `read`
issued, if any, is on the same remaining slice. -/
theorem C15_interrupted_read_restarts_iteration (fd : Int) (nbytes : Nat) (timeout_ms : Int)
    (fuel ptr nleft : Nat) (w w1 w2 wf : World) (pr r : Int) (hpos : 0 < nleft)
    (hlt : nleft < 18446744073709551616)
    (hwait : poll_wrap (some [fd]) 1 timeout_ms w = some (pr, w1)) (hready : 0 < pr)
    (hread : sys_read fd ptr nleft w1 = some (-1, w2)) (heintr : w2.errno = EINTR)
    (h : sync_read_loop fd nbytes timeout_ms (fuel + 1) ptr nleft w = some (r, wf)) :
    sync_read_loop fd nbytes timeout_ms fuel ptr nleft w2 = some (r, wf)
      ∧ (∃ ret more, newCalls w2 wf = Call.poll [fd] 1 (toInt32 timeout_ms) ret :: more)
      ∧ (∀ polls a q cnt ret rest, newCalls w2 wf = polls ++ Call.read a q cnt ret :: rest →
          OnlyPolls polls → a = fd ∧ q = ptr ∧ cnt = nleft) := by
  have hneg : toInt32 (-1) < 0 := by decide
  rw [sync_read_loop, if_pos hpos, hwait] at h
  simp only [gt_iff_lt, hready, if_true, hread, hneg, heintr] at h
  obtain ⟨ret, more, tl, hcalls, hmore, htl⟩ :=
    sync_read_loop_first_calls fd nbytes timeout_ms fuel ptr nleft w2 wf r hpos hlt h
  refine ⟨h, ⟨ret, more ++ tl, by rw [hcalls]; rfl⟩, ?_⟩
  intro polls a q cnt ret' rest hdec hpolls
  have hA : OnlyPolls (Call.poll [fd] 1 (toInt32 timeout_ms) ret :: more) := by
    intro c hc
    rcases List.mem_cons.mp hc with e | e
    · exact ⟨_, _, _, _, e⟩
    · exact hmore c e
  rcases htl with e | ⟨ret2, tl2, e⟩
  · rw [hcalls, e, List.append_nil] at hdec
    have hin : Call.read a q cnt ret' ∈ Call.poll [fd] 1 (toInt32 timeout_ms) ret :: more := by
      rw [hdec]; simp
    obtain ⟨_, _, _, _, e2⟩ := hA _ hin
    simp at e2
  · rw [hcalls, e] at hdec
    have := first_read_unique (Call.read a q cnt ret') (Call.read fd ptr nleft ret2)
      (by intro _ _ _ _ e3; simp at e3) (by intro _ _ _ _ e3; simp at e3)
      _ _ _ _ hdec hA hpolls
    simp only [Call.read.injEq] at this
    exact ⟨this.1.symm, this.2.1.symm, this.2.2.1.symm⟩

/-- Witness of C15: after the interrupted `read` a new wait reports ready and
the 4 bytes are read from the same cursor. -/
theorem C15_interrupted_read_restarts_iteration_witness :
    sync_read_loop 3 4 50 3 0 4
        { world0 (fun _ => 7) [Ev.poll 1 0, Ev.read 4 0] with
          errno := EINTR, nclock := 1,
          calls := [Call.poll [3] 1 50 1, Call.read 3 0 4 (-1)] }
      = some (4, worldAfter (sync_read_loop 3 4 50 4 0 4
          (world0 (fun _ => 7) [Ev.poll 1 0, Ev.read (-1) EINTR, Ev.poll 1 0, Ev.read 4 0]))
          (world0 (fun _ => 7) [])) :=
  (C15_interrupted_read_restarts_iteration 3 4 50 3 0 4
    (world0 (fun _ => 7) [Ev.poll 1 0, Ev.read (-1) EINTR, Ev.poll 1 0, Ev.read 4 0])
    { world0 (fun _ => 7) [Ev.read (-1) EINTR, Ev.poll 1 0, Ev.read 4 0] with
      nclock := 1, calls := [Call.poll [3] 1 50 1] }
    { world0 (fun _ => 7) [Ev.poll 1 0, Ev.read 4 0] with
      errno := EINTR, nclock := 1,
      calls := [Call.poll [3] 1 50 1, Call.read 3 0 4 (-1)] }
    (worldAfter (sync_read_loop 3 4 50 4 0 4
      (world0 (fun _ => 7) [Ev.poll 1 0, Ev.read (-1) EINTR, Ev.poll 1 0, Ev.read 4 0]))
      (world0 (fun _ => 7) []))
    1 4 (by decide) (by decide) (by rfl) (by decide) (by rfl) (by rfl) (by rfl)).1

/-! ## The timeout given to every readiness wait -/

theorem waitsStartAt_of_fresh (T : Int) (cs : List Call) (b : Bool)
    (h : WaitsStartAt T true cs) : WaitsStartAt T b cs := by
  cases cs with
  | nil => trivial
  | cons c cs =>
    cases c with
    | poll _ _ t _ => exact ⟨fun _ => h.1 rfl, h.2⟩
    | read _ _ _ _ => exact h

theorem waitsStartAt_append (T : Int) :
    ∀ (a c : List Call) (b : Bool), WaitsStartAt T b a → WaitsStartAt T true c →
      WaitsStartAt T b (a ++ c) := by
  intro a
  induction a with
  | nil => intro c b _ hc; exact waitsStartAt_of_fresh T c b hc
  | cons x xs ih =>
    intro c b ha hc
    cases x with
    | poll _ _ t _ => exact ⟨ha.1, ih c false ha.2 hc⟩
    | read _ _ _ _ => exact ih c true ha hc

theorem waitsStartAt_polls (T : Int) (cs : List Call) (h : OnlyPolls cs) :
    WaitsStartAt T false cs := by
  induction cs with
  | nil => trivial
  | cons c cs ih =>
    obtain ⟨_, _, _, _, e⟩ := h c (List.mem_cons_self _ _)
    subst e
    exact ⟨fun hb => absurd hb (by decide), ih (fun x hx => h x (List.mem_cons_of_mem _ hx))⟩

/-- Every readiness wait of a run of the loop of `ghead::sync_read_n_tmo`
starts with the timeout given to the function. -/
theorem sync_read_loop_waits (fd : Int) (nbytes : Nat) (timeout_ms : Int) :
    ∀ (fuel ptr nleft : Nat) (w wf : World) (r : Int), nleft < 18446744073709551616 →
      sync_read_loop fd nbytes timeout_ms fuel ptr nleft w = some (r, wf) →
      WaitsStartAt (toInt32 timeout_ms) true (newCalls w wf) := by
  intro fuel
  induction fuel with
  | zero =>
    intro ptr nleft w wf r _ h
    simp only [sync_read_loop] at h
    split at h
    · simp at h
    · simp only [Option.some.injEq, Prod.mk.injEq] at h
      rw [← h.2, newCalls_self]; trivial
  | succ fuel ih =>
    intro ptr nleft w wf r hlt h
    rcases Nat.eq_zero_or_pos nleft with hz | hpos
    · subst hz
      rw [sync_read_loop_done] at h
      simp only [Option.some.injEq, Prod.mk.injEq] at h
      rw [← h.2, newCalls_self]; trivial
    · obtain ⟨presult, w1, hw, hcase⟩ :=
        sync_read_loop_step_wide fd nbytes timeout_ms fuel ptr nleft w wf r hpos hlt h
      obtain ⟨c1, _, _⟩ := poll_wrap_calls [fd] 1 timeout_ms w w1 presult (by omega) hw
      obtain ⟨ret, more, hfirst, hmore⟩ :=
        poll_wrap_first_call [fd] 1 timeout_ms w w1 presult (by omega) hw
      have hP : WaitsStartAt (toInt32 timeout_ms) true (newCalls w w1) := by
        rw [hfirst]
        exact ⟨fun _ => rfl, waitsStartAt_polls _ _ hmore⟩
      rcases hcase with ⟨_, _, e⟩ | ⟨_, _, e⟩ | ⟨_, ret2, w2, hs, hrd⟩
      · subst e; exact hP
      · subst e; exact hP
      · obtain ⟨c2, hone⟩ := sys_read_calls _ _ _ _ _ _ hs
        have c12 := newCalls_trans w w1 w2 c1 c2
        have cw2 : w2.calls = w.calls ++ newCalls w w2 := by
          rw [c2, c1, c12, List.append_assoc]
        have hP2 : WaitsStartAt (toInt32 timeout_ms) true (newCalls w w2) := by
          rw [c12, hone]
          exact waitsStartAt_append _ _ _ _ hP trivial
        obtain ⟨hlo, hhi, -⟩ := sys_read_spec _ _ _ _ _ _ hs
        rcases hrd with ⟨_, _, hrec⟩ | ⟨_, _, _, e⟩ | ⟨_, _, e⟩ | ⟨h0, h1, hrec⟩
        · rw [newCalls_trans w w2 wf cw2 (sync_read_loop_calls _ _ _ _ _ _ _ _ _ hlt hrec)]
          exact waitsStartAt_append _ _ _ _ hP2 (ih _ _ _ _ _ hlt hrec)
        · subst e; exact hP2
        · subst e; exact hP2
        · rw [newCalls_trans w w2 wf cw2
            (sync_read_loop_calls _ _ _ _ _ _ _ _ _ (by omega) hrec)]
          exact waitsStartAt_append _ _ _ _ hP2 (ih _ _ _ _ _ (by omega) hrec)

theorem sync_read_n_tmo_waits (fd : Int) (ptr : Option Nat) (nbytes : Nat) (timeout_ms : Int)
    (w wf : World) (r : Int) (hlt : nbytes < 18446744073709551616)
    (h : sync_read_n_tmo fd ptr nbytes timeout_ms w = some (r, wf)) :
    wf.calls = w.calls ++ newCalls w wf
      ∧ WaitsStartAt (toInt32 timeout_ms) true (newCalls w wf) := by
  unfold sync_read_n_tmo at h
  have triv : ∀ w0 : World, w0.calls = w0.calls ++ newCalls w0 w0
      ∧ WaitsStartAt (toInt32 timeout_ms) true (newCalls w0 w0) := by
    intro w0
    rw [newCalls_self]
    exact ⟨by simp, trivial⟩
  split at h
  · simp only [Option.some.injEq, Prod.mk.injEq] at h
    rw [← h.2]; exact triv w
  · split at h
    · simp only [Option.some.injEq, Prod.mk.injEq] at h
      rw [← h.2]; exact triv w
    · exact ⟨sync_read_loop_calls _ _ _ _ _ _ _ _ _ hlt h,
        sync_read_loop_waits _ _ _ _ _ _ _ _ _ hlt h⟩

/-- Claim C16: in every run of `ghead::read(sock, head, buflen, timeout)`,
every readiness wait of the header phase and of the body phase starts with a
`poll` whose timeout is the caller's `timeout`: the value `ghead::poll_wrap`
receives (its first `poll` is issued with `timeout_ms` itself) is never
reduced, however many waits and reads came before.  Only the retries inside
one wait (a `poll` directly after an interrupted `poll`) get a reduced
timeout. -/
theorem C16_every_wait_gets_original_timeout (L : Layout) (sock : Int) (head : Option Nat)
    (buflen : Nat) (timeout : Int) (w wf : World) (rc : RETURN_CODE)
    (hlo : -2147483648 ≤ timeout) (hhi : timeout < 2147483648)
    (h : read L sock head buflen timeout w = some (rc, wf)) :
    WaitsStartAt timeout true (newCalls w wf) := by
  have e1 : toInt32 timeout = timeout := toInt32_of_range _ hlo hhi
  by_cases hv : sock < 0 ∨ head = none ∨ buflen < L.size
  · unfold read at h
    rw [if_pos hv] at h
    simp only [Option.some.injEq, Prod.mk.injEq] at h
    rw [← h.2, newCalls_self]; trivial
  · obtain ⟨hp, rfl⟩ : ∃ hp, head = some hp := by
      cases head with
      | none => exact absurd (Or.inr (Or.inl rfl)) hv
      | some hp => exact ⟨hp, rfl⟩
    have hs : 0 ≤ sock := by
      by_contra hc; exact hv (Or.inl (by omega))
    have hb : L.size ≤ buflen := by
      by_contra hc; exact hv (Or.inr (Or.inr (by omega)))
    have h1 := L.size_lt
    obtain ⟨r, w1, hh, hcase⟩ := read_inv L sock hp buflen timeout w wf rc hs hb h
    obtain ⟨c1, hW1⟩ := sync_read_n_tmo_waits _ _ _ _ _ _ _ (by omega) hh
    rw [e1] at hW1
    rcases hcase with ⟨_, _, e⟩ | ⟨_, _, _, e⟩ | ⟨_, _, _, e⟩ | ⟨_, _, _, _, e⟩ |
        ⟨_, _, _, _, _, e⟩ | ⟨_, _, _, _, r2, hbody, _⟩
    · subst e; exact hW1
    · subst e; exact hW1
    · subst e; exact hW1
    · subst e; exact hW1
    · subst e; exact hW1
    · have h3 := load32_lt w1.mem (hp + L.off_body_len)
      obtain ⟨c2, hW2⟩ := sync_read_n_tmo_waits _ _ _ _ _ _ _ (by omega) hbody
      rw [e1] at hW2
      rw [newCalls_trans w w1 wf c1 c2]
      exact waitsStartAt_append _ _ _ _ hW1 hW2

/-- Witness of C16: the first wait of the header phase is interrupted and
retried with 20 ms left of 50, the waits that follow (second wait of the
header phase, wait of the body phase) start with 50 ms again. -/
theorem C16_every_wait_gets_original_timeout_witness :
    (newCalls
        { world0 (streamOf hdr5 104)
            [Ev.poll (-1) EINTR, Ev.poll 1 0, Ev.read 4 0, Ev.poll 1 0, Ev.read 8 0,
             Ev.poll 1 0, Ev.read 5 0] with
          clock := fun i => 30000000 * (i : Int) }
        (worldAfter (read wire12 3 (some 0) 100 50
          { world0 (streamOf hdr5 104)
              [Ev.poll (-1) EINTR, Ev.poll 1 0, Ev.read 4 0, Ev.poll 1 0, Ev.read 8 0,
               Ev.poll 1 0, Ev.read 5 0] with
            clock := fun i => 30000000 * (i : Int) })
          (world0 (streamOf hdr5 104) [])))
      = [Call.poll [3] 1 50 (-1), Call.poll [3] 1 20 1, Call.read 3 0 12 4,
         Call.poll [3] 1 50 1, Call.read 3 4 8 8, Call.poll [3] 1 50 1, Call.read 3 12 5 5]
    ∧ WaitsStartAt 50 true (newCalls
        { world0 (streamOf hdr5 104)
            [Ev.poll (-1) EINTR, Ev.poll 1 0, Ev.read 4 0, Ev.poll 1 0, Ev.read 8 0,
             Ev.poll 1 0, Ev.read 5 0] with
          clock := fun i => 30000000 * (i : Int) }
        (worldAfter (read wire12 3 (some 0) 100 50
          { world0 (streamOf hdr5 104)
              [Ev.poll (-1) EINTR, Ev.poll 1 0, Ev.read 4 0, Ev.poll 1 0, Ev.read 8 0,
               Ev.poll 1 0, Ev.read 5 0] with
            clock := fun i => 30000000 * (i : Int) })
          (world0 (streamOf hdr5 104) []))) :=
  ⟨by decide, C16_every_wait_gets_original_timeout wire12 3 (some 0) 100 50 _ _ RET_SUCCESS
    (by decide) (by decide) (by rfl)⟩

/-! ## Hard failures -/

theorem retryCalls_mem_last (fds : List Int) (nfds : Nat) (clock : Nat → Int) (start : Int)
    (ret : Int) :
    ∀ (rets : List Int) (n : Nat) (rest : Int),
      ∃ t, Call.poll fds nfds t ret ∈ retryCalls fds nfds clock start (rets ++ [ret]) n rest := by
  intro rets
  induction rets with
  | nil =>
    intro n rest
    exact ⟨toInt32 rest, by simp [retryCalls]⟩
  | cons x xs ih =>
    intro n rest
    obtain ⟨t, ht⟩ := ih (n + 1) (rest - elapsed clock start n)
    exact ⟨t, by
      simp only [List.cons_append, retryCalls, List.mem_cons]
      exact Or.inr ht⟩

/-- A negative result of `ghead::poll_wrap` is the result of one of its `poll`
calls. -/
theorem poll_wrap_neg_call (fds : List Int) (nfds : Nat) (timeout_ms : Int) (w w1 : World)
    (r : Int) (hn : nfds ≠ 0) (h : poll_wrap (some fds) nfds timeout_ms w = some (r, w1))
    (hr : r < 0) : ∃ c ∈ newCalls w w1, callRet c < 0 := by
  obtain ⟨rets, ret, err, _, _, _, hcalls, _, hcase⟩ :=
    poll_wrap_outcome fds nfds timeout_ms w w1 r hn h
  rw [newCalls_of_append w w1 _ hcalls]
  obtain ⟨t, ht⟩ := retryCalls_mem_last fds nfds w.clock (w.clock w.nclock) ret rets
    (w.nclock + 1) timeout_ms
  rcases hcase with ⟨c1, c2⟩ | ⟨c1, c2, _⟩ | ⟨c1, c2, _, c3, _⟩ | ⟨c1, c2, c3, c4⟩
  · omega
  · omega
  · omega
  · exact ⟨_, ht, c1⟩

/-- A run of the loop of `ghead::sync_read_n_tmo` (request below `2^63`
bytes) that returns `-1` has issued a call with a negative result. -/
theorem sync_read_loop_neg_call (fd : Int) (nbytes : Nat) (timeout_ms : Int)
    (hn : nbytes < 9223372036854775808) :
    ∀ (fuel ptr nleft : Nat) (w wf : World) (r : Int), nleft ≤ nbytes →
      sync_read_loop fd nbytes timeout_ms fuel ptr nleft w = some (r, wf) → r = -1 →
      ∃ c ∈ newCalls w wf, callRet c < 0 := by
  have hcount : ∀ nleft : Nat, nleft ≤ nbytes → read_count nbytes nleft ≠ -1 := by
    intro nleft hle
    rw [read_count_of_le _ _ hle hn]
    omega
  intro fuel
  induction fuel with
  | zero =>
    intro ptr nleft w wf r hle h hr
    simp only [sync_read_loop] at h
    split at h
    · simp at h
    · simp only [Option.some.injEq, Prod.mk.injEq] at h
      exact absurd (h.1.trans hr) (hcount _ hle)
  | succ fuel ih =>
    intro ptr nleft w wf r hle h hr
    rcases Nat.eq_zero_or_pos nleft with hz | hpos
    · subst hz
      rw [sync_read_loop_done] at h
      simp only [Option.some.injEq, Prod.mk.injEq] at h
      exact absurd (h.1.trans hr) (hcount _ hle)
    · obtain ⟨presult, w1, hw, hcase⟩ :=
        sync_read_loop_step_wide fd nbytes timeout_ms fuel ptr nleft w wf r hpos (by omega) h
      obtain ⟨c1, _, _⟩ := poll_wrap_calls [fd] 1 timeout_ms w w1 presult (by omega) hw
      rcases hcase with ⟨hz, hr0, e⟩ | ⟨hneg, hr0, e⟩ | ⟨hp0, ret, w2, hs, hrd⟩
      · exact absurd (hr0.symm.trans hr) (hcount _ hle)
      · rw [e]
        exact poll_wrap_neg_call [fd] 1 timeout_ms w w1 presult (by omega) hw hneg
      · obtain ⟨c2, c2n⟩ := sys_read_calls _ _ _ _ _ _ hs
        have c12 : newCalls w w2 = newCalls w w1 ++ [Call.read fd ptr nleft ret] := by
          rw [newCalls_trans w w1 w2 c1 c2, c2n]
        have cw2 : w2.calls = w.calls ++ newCalls w w2 := by
          rw [c12, c2, c1, c2n, List.append_assoc]
        rcases hrd with ⟨hm, he, hrec⟩ | ⟨hm, he, hr0, e⟩ | ⟨h0, hr0, e⟩ | ⟨h0, h1, hrec⟩
        · have c3 := sync_read_loop_calls _ _ _ _ _ _ _ _ _ (by omega) hrec
          rw [newCalls_trans w w2 wf cw2 c3, c12]
          exact ⟨Call.read fd ptr nleft ret, by simp, by simp only [callRet]; omega⟩
        · subst e
          rw [c12]
          exact ⟨Call.read fd ptr nleft ret, by simp, by simp only [callRet]; omega⟩
        · exact absurd (hr0.symm.trans hr) (hcount _ hle)
        · have c3 := sync_read_loop_calls _ _ _ _ _ _ _ _ _ (by omega) hrec
          obtain ⟨c, hc, hlt⟩ := ih _ _ _ _ _ (by omega) hrec hr
          rw [newCalls_trans w w2 wf cw2 c3]
          exact ⟨c, List.mem_append_right _ hc, hlt⟩

/-- A run of `ghead::sync_read_n_tmo` for `0 < nbytes < 2^63` bytes in which
no call has a negative result: the result is the number `n` of bytes taken
from the peer, and all `nbytes` were read exactly when the last call is a
`read` with a positive count. -/
theorem sync_read_n_tmo_clean (fd : Int) (p nbytes : Nat) (timeout_ms : Int) (w wf : World)
    (r : Int) (hpos : 0 < nbytes) (hn : nbytes < 9223372036854775808)
    (h : sync_read_n_tmo fd (some p) nbytes timeout_ms w = some (r, wf))
    (hnn : ∀ c ∈ newCalls w wf, 0 ≤ callRet c) :
    ∃ n, n ≤ nbytes ∧ r = (n : Int) ∧ wf.pos = w.pos + n
      ∧ (n = nbytes ↔ lastIsData (newCalls w wf))
      ∧ wf.calls = w.calls ++ newCalls w wf ∧ newCalls w wf ≠ [] := by
  rw [sync_read_n_tmo_some _ _ _ _ _ hpos] at h
  have hne : r ≠ -1 := by
    intro e
    obtain ⟨c, hc, hlt⟩ :=
      sync_read_loop_neg_call fd nbytes timeout_ms (by omega) _ _ _ _ _ _ (le_refl _) h e
    have := hnn c hc
    omega
  obtain ⟨n, a, b, _, d, _, f⟩ :=
    sync_read_loop_run fd nbytes timeout_ms (by omega) _ _ _ _ _ _ (le_refl _) h hne
  refine ⟨n, a, by rw [b]; congr 1; omega, d, f hpos,
    sync_read_loop_calls _ _ _ _ _ _ _ _ _ (by omega) h,
    sync_read_loop_calls_ne_nil _ _ _ _ _ _ _ _ _ hpos (by omega) h⟩

/-- The return code chosen after the body phase, for a count `n2` of at most
`bl < 2^31` bytes. -/
theorem body_code (bl n2 : Nat) (hbl : bl < 2147483648) (hn : n2 ≤ bl) (wf : World) :
    (if toInt32 (n2 : Int) ≤ 0 then ghead_read_fail (toInt32 (n2 : Int)) wf
      else if toInt32 (n2 : Int) ≠ toInt32 (bl : Int) then RET_READ else RET_SUCCESS)
      = if n2 = 0 then RET_PEARCLOSE else if n2 < bl then RET_READ else RET_SUCCESS := by
  rw [toInt32_of_range (n2 : Int) (by omega) (by omega),
    toInt32_of_range (bl : Int) (by omega) (by omega)]
  by_cases h0 : n2 = 0
  · subst h0
    simp [ghead_read_fail]
  · rw [if_neg (by omega), if_neg h0]
    by_cases h1 : n2 < bl
    · rw [if_pos (by omega), if_pos h1]
    · rw [if_neg (by omega), if_neg h1]

/-- A log whose last call is a `read` with a positive count does not end with
a call that returned 0. -/
theorem lastIsData_ret (cs : List Call) (last : Call) (h : lastIsData cs)
    (hl : cs.getLast? = some last) : 0 < callRet last := by
  obtain ⟨fd, q, cnt, ret, e, hp⟩ := h
  rw [e] at hl
  simp only [Option.some.injEq] at hl
  rw [← hl]
  exact hp

theorem ghead_read_fail_zero (w : World) : ghead_read_fail 0 w = RET_PEARCLOSE := by
  simp [ghead_read_fail]

/-- Claim C18: in a run of `ghead::read` in which every `poll` and `read` call
returned a non-negative result, with `body_len < 2^31` (a bound on the header
field, asked only of runs that received the whole header; what the buffer
held before is free), the return code is never `RET_ETIMEDOUT`; and when the run ends on a call that returned 0 (a
`poll` that timed out or, with the same codes, a `read` of zero bytes), the
code is `RET_PEARCLOSE` when the phase had no byte (none at all, or exactly
the header), `RET_READHEAD` after a partial header and `RET_READ` after a
partial body. -/
theorem C18_timeout_never_returns_timeout_code (L : Layout) (sock : Int) (head : Option Nat)
    (buflen : Nat) (timeout : Int) (w wf : World) (rc : RETURN_CODE)
    (h : read L sock head buflen timeout w = some (rc, wf))
    (hnn : ∀ c ∈ newCalls w wf, 0 ≤ callRet c)
    (hbl : ∀ hp, head = some hp → w.pos + L.size ≤ wf.pos →
      load32 wf.mem (hp + L.off_body_len) < 2147483648) :
    rc ≠ RET_ETIMEDOUT
      ∧ ∀ last, (newCalls w wf).getLast? = some last → callRet last = 0 →
          (wf.pos = w.pos → rc = RET_PEARCLOSE)
          ∧ (w.pos < wf.pos → wf.pos < w.pos + L.size → rc = RET_READHEAD)
          ∧ (wf.pos = w.pos + L.size → rc = RET_PEARCLOSE)
          ∧ (w.pos + L.size < wf.pos → rc = RET_READ) := by
  have h1 := L.size_lt
  have h2 := L.magic_num_in
  by_cases hbad : sock < 0 ∨ head = none ∨ buflen < L.size
  · unfold read at h
    rw [if_pos hbad] at h
    simp only [Option.some.injEq, Prod.mk.injEq] at h
    obtain ⟨hrc, hw⟩ := h
    subst hw
    refine ⟨by rw [← hrc]; decide, fun last hl _ => ?_⟩
    rw [newCalls_self] at hl
    simp at hl
  · cases head with
    | none => exact absurd (Or.inr (Or.inl rfl)) hbad
    | some hp =>
      have hsock : 0 ≤ sock := by
        by_contra hc; exact hbad (Or.inl (by omega))
      have hbuf : L.size ≤ buflen := by
        by_contra hc; exact hbad (Or.inr (Or.inr (by omega)))
      obtain ⟨r, w1, hh, hcase⟩ := read_inv L sock hp buflen timeout w wf rc hsock hbuf h
      have hW := sync_read_n_tmo_within sock hp L.size timeout w w1 r (by omega) hh
      have c1 := (within_newCalls hW).1
      have hdr := sync_read_n_tmo_clean sock hp L.size timeout w w1 r (by omega) (by omega) hh
      have full : ∀ (rc0 : RETURN_CODE), rc = rc0 → rc0 ≠ RET_ETIMEDOUT → r = L.size →
          wf = w1 →
          rc ≠ RET_ETIMEDOUT
            ∧ ∀ last, (newCalls w wf).getLast? = some last → callRet last = 0 →
              (wf.pos = w.pos → rc = RET_PEARCLOSE)
              ∧ (w.pos < wf.pos → wf.pos < w.pos + L.size → rc = RET_READHEAD)
              ∧ (wf.pos = w.pos + L.size → rc = RET_PEARCLOSE)
              ∧ (w.pos + L.size < wf.pos → rc = RET_READ) := by
        intro rc0 hrc hne hr e
        subst e
        obtain ⟨n, hn, hrn, _, hlast, _, _⟩ := hdr hnn
        refine ⟨by rw [hrc]; exact hne, fun last hl h0 => ?_⟩
        have := lastIsData_ret _ last (hlast.mp (by omega)) hl
        omega
      rcases hcase with ⟨c, hrc, e⟩ | ⟨c, c', hrc, e⟩ | ⟨c, _, hrc, e⟩ | ⟨c, _, _, hrc, e⟩
        | ⟨c, _, _, _, hrc, e⟩ | ⟨c, _, _, hb0, r2, hh2, hrc⟩
      · subst e
        obtain ⟨n, hn, hrn, hpos, _, _, _⟩ := hdr hnn
        have hr : r = 0 := by omega
        rw [hr, ghead_read_fail_zero] at hrc
        refine ⟨by rw [hrc]; decide, fun last _ _ => ⟨fun _ => hrc, fun _ _ => ?_, fun _ => ?_,
          fun _ => ?_⟩⟩
        · exfalso; omega
        · exfalso; omega
        · exfalso; omega
      · subst e
        obtain ⟨n, hn, hrn, hpos, _, _, _⟩ := hdr hnn
        refine ⟨by rw [hrc]; decide, fun last _ _ => ⟨fun _ => ?_, fun _ _ => hrc, fun _ => ?_,
          fun _ => ?_⟩⟩
        · exfalso; omega
        · exfalso; omega
        · exfalso; omega
      · exact full _ hrc (by decide) c e
      · exact full _ hrc (by decide) c e
      · exact full _ hrc (by decide) c e
      · have h3 := load32_lt w1.mem (hp + L.off_body_len)
        have hW2 := sync_read_n_tmo_within _ _ _ _ _ _ _ h3 hh2
        have c2 := (within_newCalls hW2).1
        obtain ⟨_, k2⟩ := header_kept L hp _ w1 wf hW2
        rw [k2] at hrc
        have hsplit := newCalls_trans w w1 wf c1 c2
        have hnn1 : ∀ c ∈ newCalls w w1, 0 ≤ callRet c := by
          intro x hx
          exact hnn x (by rw [hsplit]; exact List.mem_append_left _ hx)
        have hnn2 : ∀ c ∈ newCalls w1 wf, 0 ≤ callRet c := by
          intro x hx
          exact hnn x (by rw [hsplit]; exact List.mem_append_right _ hx)
        obtain ⟨n, hn, hrn, hpos, _, _, _⟩ := hdr hnn1
        obtain ⟨n2, hn2, hrn2, hpos2, hlast2, _, hne2⟩ :=
          sync_read_n_tmo_clean sock (hp + L.size) _ timeout w1 wf r2 hb0 (by omega) hh2 hnn2
        have hbl2 : load32 w1.mem (hp + L.off_body_len) < 2147483648 := by
          rw [← k2]
          exact hbl hp rfl (by omega)
        rw [hrn2, body_code _ n2 hbl2 hn2 wf] at hrc
        have en : n = L.size := by omega
        by_cases z : n2 = 0
        · rw [if_pos z] at hrc
          refine ⟨by rw [hrc]; decide, fun last _ _ => ⟨fun _ => hrc, fun _ _ => ?_,
            fun _ => hrc, fun _ => ?_⟩⟩
          · exfalso; omega
          · exfalso; omega
        · rw [if_neg z] at hrc
          by_cases lt : n2 < load32 w1.mem (hp + L.off_body_len)
          · rw [if_pos lt] at hrc
            refine ⟨by rw [hrc]; decide, fun last _ _ => ⟨fun _ => ?_, fun _ _ => ?_,
              fun _ => ?_, fun _ => hrc⟩⟩
            · exfalso; omega
            · exfalso; omega
            · exfalso; omega
          · rw [if_neg lt] at hrc
            refine ⟨by rw [hrc]; decide, fun last hl h0 => ?_⟩
            have hd : lastIsData (newCalls w wf) := by
              rw [hsplit]
              exact (lastIsData_append _ _ hne2).mpr (hlast2.mp (by omega))
            have := lastIsData_ret _ last hd hl
            omega

/-- Witness of C18: the buffer holds stale bytes 255 (a `body_len` field of
`2^32 - 1`), four header bytes arrive and the next readiness wait times out;
every call returned a non-negative result and the code is `RET_READHEAD`. -/
theorem C18_timeout_never_returns_timeout_code_witness :
    (newCalls (worldStale (streamOf hdr5 7) [Ev.poll 1 0, Ev.read 4 0, Ev.poll 0 0])
        (worldAfter (read wire12 3 (some 0) 100 50
          (worldStale (streamOf hdr5 7) [Ev.poll 1 0, Ev.read 4 0, Ev.poll 0 0]))
          (world0 (fun _ => 0) [])))
        = [Call.poll [3] 1 50 1, Call.read 3 0 12 4, Call.poll [3] 1 50 0]
      ∧ load32 (worldAfter (read wire12 3 (some 0) 100 50
          (worldStale (streamOf hdr5 7) [Ev.poll 1 0, Ev.read 4 0, Ev.poll 0 0]))
          (world0 (fun _ => 0) [])).mem 8 = 4294967295
      ∧ code (read wire12 3 (some 0) 100 50
          (worldStale (streamOf hdr5 7) [Ev.poll 1 0, Ev.read 4 0, Ev.poll 0 0]))
        = some RET_READHEAD
      ∧ RET_READHEAD ≠ RET_ETIMEDOUT :=
  ⟨by rfl, by rfl, by rfl,
    (C18_timeout_never_returns_timeout_code wire12 3 (some 0) 100 50
      (worldStale (streamOf hdr5 7) [Ev.poll 1 0, Ev.read 4 0, Ev.poll 0 0])
      (worldAfter (read wire12 3 (some 0) 100 50
        (worldStale (streamOf hdr5 7) [Ev.poll 1 0, Ev.read 4 0, Ev.poll 0 0]))
        (world0 (fun _ => 0) []))
      RET_READHEAD (by rfl) (by decide)
      (fun _ _ hle => absurd hle (by decide))).1⟩

/-! ## A frame delivered in full -/

theorem load32_shift (m1 m2 : Nat → Nat) (a b : Nat)
    (h : ∀ j, j < 4 → m1 (a + j) = m2 (b + j)) : load32 m1 a = load32 m2 b := by
  unfold load32
  rw [← h 1 (by omega), ← h 2 (by omega), ← h 3 (by omega)]
  have := h 0 (by omega)
  simp only [Nat.add_zero] at this
  rw [this]

/-- The accumulating read against a peer that delivers exactly the `nbytes`
requested bytes in the chunks `cs`, every wait reporting ready: the result is
`nbytes`. -/
theorem sync_read_n_tmo_deliver (fd : Int) (p nbytes : Nat) (timeout_ms : Int) (w : World)
    (cs : List (Int × Nat)) (tl : List Ev) (hpos : 0 < nbytes) (hn : nbytes < 2147483648)
    (hcs : ∀ c ∈ cs, 0 < c.1 ∧ 0 < c.2 ∧ c.2 ≤ 2147479552) (htot : total cs = nbytes)
    (htr : w.trace = deliver cs ++ tl) :
    ∃ w1, sync_read_n_tmo fd (some p) nbytes timeout_ms w = some ((nbytes : Int), w1)
      ∧ w1.trace = tl := by
  have hl : w.trace.length + 1 = (cs.length + tl.length + 1) + cs.length := by
    rw [htr, List.length_append, length_deliver]; omega
  obtain ⟨w1, e1, e2, _⟩ := sync_read_loop_deliver fd nbytes timeout_ms cs
    (cs.length + tl.length + 1) p nbytes w tl hcs (by omega) (by omega) htr
  refine ⟨w1, ?_, e2⟩
  rw [sync_read_n_tmo_some _ _ _ _ _ hpos, hl, e1, htot, Nat.sub_self, sync_read_loop_done,
    read_count_of_le _ _ (Nat.zero_le _) (by omega)]
  rfl

/-- A frame delivered in full, with `body_len < 2^31`: the peer sends a
header with the right magic and then `body_len` body bytes that fit the
buffer, the header in the chunks `hs` and the body in the chunks `bs` (each of
a positive size within the limit of one `read`), every wait reporting ready.
`ghead::read` returns `RET_SUCCESS`, has consumed exactly these outcomes, and
the first `sizeof(ghead) + body_len` bytes of the buffer are the bytes the
peer sent, in order. -/
theorem read_delivered_frame (L : Layout) (sock : Int) (hp buflen : Nat) (timeout : Int)
    (w : World) (hs bs : List (Int × Nat)) (tl : List Ev) (hsock : 0 ≤ sock)
    (hmagic : load32 w.peer (w.pos + L.off_magic_num) = GHEAD_MAGICNUM)
    (hcap : L.size + load32 w.peer (w.pos + L.off_body_len) ≤ buflen)
    (hlt : load32 w.peer (w.pos + L.off_body_len) < 2147483648)
    (hhs : ∀ c ∈ hs, 0 < c.1 ∧ 0 < c.2 ∧ c.2 ≤ 2147479552)
    (hbs : ∀ c ∈ bs, 0 < c.1 ∧ 0 < c.2 ∧ c.2 ≤ 2147479552)
    (hths : total hs = L.size)
    (htbs : total bs = load32 w.peer (w.pos + L.off_body_len))
    (htr : w.trace = deliver hs ++ (deliver bs ++ tl)) :
    ∃ wf, read L sock (some hp) buflen timeout w = some (RET_SUCCESS, wf)
      ∧ wf.trace = tl
      ∧ wf.pos = w.pos + (L.size + load32 w.peer (w.pos + L.off_body_len))
      ∧ ∀ i, i < L.size + load32 w.peer (w.pos + L.off_body_len) →
          wf.mem (hp + i) = w.peer (w.pos + i) := by
  have h1 := L.size_lt
  have h2 := L.magic_num_in
  have h3 := L.body_len_in
  obtain ⟨w1, hh, htr1⟩ := sync_read_n_tmo_deliver sock hp L.size timeout w hs
    (deliver bs ++ tl) (by omega) h1 hhs hths htr
  have hW := sync_read_n_tmo_within sock hp L.size timeout w w1 _ (by omega) hh
  have hH := sync_read_n_tmo_count sock hp L.size timeout w w1 _ (by omega) h1 hh
  obtain ⟨hpos1, hmem1⟩ : w1.pos = w.pos + L.size
      ∧ ∀ i, i < L.size → w1.mem (hp + i) = w.peer (w.pos + i) := by
    rcases hH with e | ⟨n, _, e, a, b⟩
    · omega
    · have : n = L.size := by omega
      subst this
      exact ⟨a, b⟩
  have em : load32 w1.mem (hp + L.off_magic_num) = load32 w.peer (w.pos + L.off_magic_num) :=
    load32_shift _ _ _ _ (fun j hj => by
      have := hmem1 (L.off_magic_num + j) (by omega)
      rw [← Nat.add_assoc, ← Nat.add_assoc] at this
      exact this)
  have eb : load32 w1.mem (hp + L.off_body_len) = load32 w.peer (w.pos + L.off_body_len) :=
    load32_shift _ _ _ _ (fun j hj => by
      have := hmem1 (L.off_body_len + j) (by omega)
      rw [← Nat.add_assoc, ← Nat.add_assoc] at this
      exact this)
  rw [read_after_header L sock hp buflen timeout w w1 hsock (by omega) hh, em, eb,
    if_neg (not_not.mpr hmagic), if_neg (by omega)]
  by_cases hb0 : load32 w.peer (w.pos + L.off_body_len) > 0
  · rw [if_pos hb0]
    obtain ⟨wf, hh2, htr2⟩ := sync_read_n_tmo_deliver sock (hp + L.size) _ timeout w1 bs tl
      hb0 hlt hbs htbs htr1
    have hW2 := sync_read_n_tmo_within sock (hp + L.size) _ timeout w1 wf _ (by omega) hh2
    have hB := sync_read_n_tmo_count sock (hp + L.size) _ timeout w1 wf _ hb0 hlt hh2
    obtain ⟨_, k2⟩ := header_kept L hp _ w1 wf hW2
    obtain ⟨hpos2, hmem2⟩ : wf.pos = w1.pos + load32 w.peer (w.pos + L.off_body_len)
        ∧ ∀ i, i < load32 w.peer (w.pos + L.off_body_len) →
          wf.mem (hp + L.size + i) = w1.peer (w1.pos + i) := by
      rcases hB with e | ⟨n, _, e, a, b⟩
      · omega
      · have : n = load32 w.peer (w.pos + L.off_body_len) := by omega
        rw [this] at a b
        exact ⟨a, b⟩
    have n1 : ¬ ((load32 w.peer (w.pos + L.off_body_len) : Int) ≤ 0) := by omega
    refine ⟨wf, ?_, htr2, by rw [hpos2, hpos1]; omega, fun i hi => ?_⟩
    · rw [hh2]
      simp only [k2, eb]
      rw [toInt32_of_range _ (Int.le_trans (by decide) (Int.ofNat_nonneg _))
        (Int.ofNat_lt.mpr hlt), if_neg n1, if_neg (by simp)]
    · by_cases hi1 : i < L.size
      · rw [hW2.2.1 (hp + i) (Or.inl (by omega))]
        exact hmem1 i hi1
      · have := hmem2 (i - L.size) (by omega)
        rw [show hp + L.size + (i - L.size) = hp + i by omega, hW.1, hpos1] at this
        rw [this]
        congr 1; omega
  · rw [if_neg hb0]
    have hz : load32 w.peer (w.pos + L.off_body_len) = 0 := by omega
    have hbnil : bs = [] := by
      cases bs with
      | nil => rfl
      | cons c cs =>
        exfalso
        have := (hbs c (List.mem_cons_self _ _)).2.1
        simp only [total] at htbs
        omega
    rw [hbnil] at htr1
    refine ⟨w1, rfl, by simpa [deliver] using htr1, by rw [hpos1, hz]; rfl, fun i hi => ?_⟩
    exact hmem1 i (by omega)

/-- A frame of 12 + 5 bytes delivered in three chunks is read with
`RET_SUCCESS`. -/
theorem read_delivered_frame_example :
    ∃ wf, read wire12 3 (some 0) 100 50
        (world0 (streamOf hdr5 7) (deliver [(1, 12)] ++ (deliver [(1, 2), (1, 3)] ++ [])))
        = some (RET_SUCCESS, wf)
      ∧ wf.trace = [] ∧ wf.pos = 17 :=
  have h := read_delivered_frame wire12 3 0 100 50
    (world0 (streamOf hdr5 7) (deliver [(1, 12)] ++ (deliver [(1, 2), (1, 3)] ++ [])))
    [(1, 12)] [(1, 2), (1, 3)] [] (by decide) (by decide) (by decide) (by decide)
    (by decide) (by decide) (by rfl) (by rfl) (by rfl)
  h.imp (fun _ hw => ⟨hw.1, hw.2.1, hw.2.2.1⟩)

/-! ## The parameter check of the accumulating read -/

/-- A readiness wait whose first `poll` returns 0 has issued that one call,
with the timeout given to `ghead::poll_wrap`. -/
theorem poll_wrap_timeout_calls (fds : List Int) (nfds : Nat) (timeout_ms : Int) (w : World)
    (e : Int) (tl : List Ev) (hn : nfds ≠ 0) (htr : w.trace = Ev.poll 0 e :: tl) :
    ∃ w1, poll_wrap (some fds) nfds timeout_ms w = some (0, w1)
      ∧ w1.calls = w.calls ++ [Call.poll fds nfds (toInt32 timeout_ms) 0] := by
  unfold poll_wrap
  simp only [if_neg hn]
  rw [poll_wrap_loop]
  simp only [sys_poll, now, htr]
  rw [if_pos trivial]
  exact ⟨_, rfl, rfl⟩

theorem read_count_self (nbytes : Nat) : read_count nbytes nbytes = 0 := by
  unfold read_count
  rw [sub_self]
  rfl

/-- Claim C14, as amended: `ghead::sync_read_n_tmo` returns `-1` without any
poll or read call (the world is untouched) whenever the destination is empty
(`ptr` null or `nbytes == 0`), whatever the descriptor.  It does not check
the descriptor: with a non-null `ptr` and `nbytes > 0`, for every `fd`,
negative ones included, every run starts with a `poll` on `fd` with the
timeout given, and when that first `poll` times out the function returns 0,
not `-1`, after this one call. -/
theorem C14_only_the_destination_is_checked (fd : Int) (ptr : Option Nat) (nbytes : Nat)
    (timeout_ms : Int) (w : World) (hsize : nbytes < 18446744073709551616) :
    ((ptr = none ∨ nbytes = 0) → sync_read_n_tmo fd ptr nbytes timeout_ms w = some (-1, w))
      ∧ (∀ p, ptr = some p → 0 < nbytes →
          (∀ r wf, sync_read_n_tmo fd ptr nbytes timeout_ms w = some (r, wf) →
              ∃ ret more, newCalls w wf = Call.poll [fd] 1 (toInt32 timeout_ms) ret :: more)
          ∧ (∀ err tl, w.trace = Ev.poll 0 err :: tl →
              ∃ wf, sync_read_n_tmo fd ptr nbytes timeout_ms w = some (0, wf)
                ∧ newCalls w wf = [Call.poll [fd] 1 (toInt32 timeout_ms) 0])) := by
  refine ⟨fun hempty => ?_, fun p hp hpos => ?_⟩
  · unfold sync_read_n_tmo
    cases ptr with
    | none => rfl
    | some p =>
      rcases hempty with h | h
      · cases h
      · simp only [h, if_true]
  · subst hp
    rw [sync_read_n_tmo_some _ _ _ _ _ hpos]
    refine ⟨fun r wf h => ?_, fun err tl htr => ?_⟩
    · obtain ⟨ret, more, tl, e, _, _⟩ :=
        sync_read_loop_first_calls fd nbytes timeout_ms _ p nbytes w wf r hpos hsize h
      exact ⟨ret, more ++ tl, by rw [e]; rfl⟩
    · obtain ⟨w1, hpw, hcalls⟩ := poll_wrap_timeout_calls [fd] 1 timeout_ms w err tl
        (by omega) htr
      refine ⟨w1, ?_, newCalls_of_append w w1 _ hcalls⟩
      rw [sync_read_loop, if_pos hpos, hpw]
      simp only [gt_iff_lt, lt_self_iff_false, if_false, if_true, read_count_self]

/-- Witness of C14: the descriptor `-1` with a destination of 4 bytes; the
first `poll` is issued on `[-1]` and, as it times out, the result is 0. -/
theorem C14_only_the_destination_is_checked_witness :
    ∃ wf, sync_read_n_tmo (-1) (some 0) 4 50 (world0 (fun _ => 0) [Ev.poll 0 0]) = some (0, wf)
      ∧ newCalls (world0 (fun _ => 0) [Ev.poll 0 0]) wf = [Call.poll [-1] 1 (toInt32 50) 0] :=
  ((C14_only_the_destination_is_checked (-1) (some 0) 4 50
      (world0 (fun _ => 0) [Ev.poll 0 0]) (by decide)).2 0 rfl (by decide)).2 0 [] rfl

end galois.ghead
